import Mathlib

/-!
Verification of the open-addressing hash table in `src/hashmap.c`
(garrisonhh/ghh-lib).

The C code is shallowly embedded: machine `uint64_t` arithmetic becomes
`Nat` arithmetic reduced modulo `2 ^ 64`, keys (byte data behind `void *`
pointers) become `List Nat` byte sequences, value handles become `Nat`
with `0` playing the role of the null pointer, and the bucket array
becomes a function `Nat → Bucket` together with an explicit
`alloc_size`, mirroring the `hashbucket_t *buckets` / `size_t alloc_size`
pair of `struct ghh_hashmap`.  Loops whose termination depends on the
table invariant (the probe loop and the backward-shift loop of
`hashmap_remove`) are given explicit fuel and return `Option`; `none`
models C-level divergence, which is proved unreachable from valid
states.
-/

set_option maxHeartbeats 1000000

namespace GhhHashmap

/-! ### FNV-1a hashing (64-bit branch of `hash_key`) -/

/-- `2^64`, the modulus of `hash_t = uint64_t` arithmetic. -/
def U64 : Nat := 2 ^ 64

/-- `#define FNV_PRIME 0x00000100000001b3` (64-bit branch). -/
def FNV_PRIME : Nat := 0x00000100000001b3

/-- `#define FNV_BASIS 0xcbf29ce484222325` (64-bit branch). -/
def FNV_BASIS : Nat := 0xcbf29ce484222325

/-- `#define MIN_HASHMAP_SIZE 8`. -/
def MIN_HASHMAP_SIZE : Nat := 8

/-- One FNV-1a step: `hash ^= byte; hash *= FNV_PRIME;` in `uint64_t`. -/
def fnvStep (h b : Nat) : Nat := ((h ^^^ b) * FNV_PRIME) % U64

/-- The variable-length loop of `hash_key`:
`while (*bytes) { hash ^= *bytes++; hash *= FNV_PRIME; }` —
it stops at (and does not hash) the zero terminator. -/
def hashVarAux : Nat → List Nat → Nat
  | h, [] => h
  | h, b :: bs => if b = 0 then h else hashVarAux (fnvStep h b) bs

/-- The fixed-size loop of `hash_key`:
`for (int i = 0; i < key_size; ++i) { hash ^= bytes[i]; hash *= FNV_PRIME; }`. -/
def hashFixedAux : Nat → Nat → List Nat → Nat
  | h, 0, _ => h
  | h, _ + 1, [] => h
  | h, n + 1, b :: bs => hashFixedAux (fnvStep h b) n bs

/-- `hash_key`: a negative `key_size` selects the zero-terminated
variable-length mode, otherwise exactly `key_size` bytes are hashed. -/
def hash_key (key_size : Int) (key : List Nat) : Nat :=
  if key_size < 0 then hashVarAux FNV_BASIS key
  else hashFixedAux FNV_BASIS key_size.toNat key

/-- Variable-length branch of `key_equals`: the `do … while (kbytes[i++])`
loop compares byte by byte up to and including the zero terminator. -/
def key_equals_var : List Nat → List Nat → Bool
  | a :: as, b :: bs => a == b && (a == 0 || key_equals_var as bs)
  | [], [] => true
  | _, _ => false

/-- Fixed-size branch of `key_equals`: compare exactly `n` bytes. -/
def key_equals_fixed : Nat → List Nat → List Nat → Bool
  | 0, _, _ => true
  | n + 1, a :: as, b :: bs => a == b && key_equals_fixed n as bs
  | _ + 1, [], [] => true
  | _ + 1, _, _ => false

/-- `key_equals`, dispatching on the sign of `key_size` like the C code. -/
def key_equals (key_size : Int) (a b : List Nat) : Bool :=
  if key_size < 0 then key_equals_var a b else key_equals_fixed key_size.toNat a b

/-- `copy_key`: under copy-mode the table stores a private copy of the key
bytes — the bytes up to and including the terminator in variable-length
mode, exactly `key_size` bytes in fixed mode. -/
def copy_key (key_size : Int) (key : List Nat) : List Nat :=
  if key_size < 0 then key.takeWhile (fun b => b ≠ 0) ++ [0]
  else key.take key_size.toNat

/-! ### Data model: `hashbucket_t` and `struct ghh_hashmap` -/

/-- `hashbucket_t`.  `key = none` models a `NULL` key pointer (the state
`calloc` leaves a fresh bucket in); `value` is an opaque handle with `0`
as the null handle. -/
structure Bucket where
  filled : Bool
  desired_idx : Nat
  hash : Nat
  key : Option (List Nat)
  value : Nat
deriving DecidableEq, Repr

/-- The all-zero bucket produced by `calloc`. -/
def emptyBucket : Bucket :=
  { filled := false, desired_idx := 0, hash := 0, key := none, value := 0 }

/-- The byte data reached through a bucket's key pointer. -/
def bkey (b : Bucket) : List Nat := b.key.getD []

/-- `struct ghh_hashmap`.  The bucket array is a function together with
the explicit `alloc_size`; indices `≥ alloc_size` are never accessed by
the operations. -/
structure Hashmap where
  buckets : Nat → Bucket
  size : Nat
  min_size : Nat
  alloc_size : Nat
  key_size : Int
  copy_keys : Bool

/-- `hashmap_create`.  `MAX` is the usual larger-of-two macro from
`ghh/utils.h` (not part of this repository's sources); the spec fixes its
meaning: "at least 8, or the caller's requested initial size if larger". -/
def hashmap_create (initial_size : Nat) (key_size : Int) (copy_keys : Bool) : Hashmap :=
  { buckets := fun _ => emptyBucket
    size := 0
    min_size := Nat.max initial_size MIN_HASHMAP_SIZE
    alloc_size := Nat.max initial_size MIN_HASHMAP_SIZE
    key_size := key_size
    copy_keys := copy_keys }

/-- `hashmap_size`. -/
def hashmap_size (h : Hashmap) : Nat := h.size

/-- The probe loop of `get_bucket_index`:
walk from `index` with wraparound while the bucket is filled and does not
match (`hash` equal and `key_equals`); fuel bounds the walk, `none`
models the infinite loop the C code would enter on a full non-matching
array. -/
def probeAux (ks : Int) (bsf : Nat → Bucket) (n : Nat) (key : List Nat) (hash : Nat) :
    Nat → Nat → Option Nat
  | _, 0 => none
  | index, fuel + 1 =>
    let b := bsf index
    if b.filled = true ∧ ¬(b.hash = hash ∧ key_equals ks key (bkey b) = true) then
      probeAux ks bsf n key hash ((index + 1) % n) fuel
    else some index

instance (ks : Int) (bsf : Nat → Bucket) (n : Nat) (key : List Nat) (hash : Nat) (index : Nat) :
    Decidable ((bsf index).filled = true ∧
      ¬((bsf index).hash = hash ∧ key_equals ks key (bkey (bsf index)) = true)) :=
  instDecidableAnd

/-- `get_bucket_index(hmap, key, hash)`: start at `hash % alloc_size`. -/
def get_bucket_index (h : Hashmap) (key : List Nat) (hash : Nat) : Option Nat :=
  probeAux h.key_size h.buckets h.alloc_size key hash (hash % h.alloc_size) h.alloc_size

/-- `hashmap_set_lower`: returns the updated table and the old value
(`0` = `NULL` when the slot was empty).  On an already-filled slot the
cached hash is kept; on an empty slot the supplied hash is stored and the
logical count incremented; in both cases key, value and `desired_idx`
are (re)written, the latter from the stored hash and current capacity. -/
def hashmap_set_lower (h : Hashmap) (key : List Nat) (value : Nat) (hash : Nat) :
    Option (Hashmap × Nat) :=
  match get_bucket_index h key hash with
  | none => none
  | some index =>
    let b := h.buckets index
    let old_value := if b.filled then b.value else 0
    let size' := if b.filled then h.size else h.size + 1
    let hash' := if b.filled then b.hash else hash
    let b' : Bucket :=
      { filled := true, desired_idx := hash' % h.alloc_size, hash := hash',
        key := some key, value := value }
    some ({ h with buckets := Function.update h.buckets index b', size := size' }, old_value)

/-- The reinsertion loop of `rehash`, iterating over the indices of the
old bucket array and feeding each filled slot's (key, value, hash) triple
back through `hashmap_set_lower`. -/
def rehashLoop (old : Nat → Bucket) : List Nat → Hashmap → Option Hashmap
  | [], h => some h
  | i :: rest, h =>
    if (old i).filled then
      match hashmap_set_lower h (bkey (old i)) (old i).value (old i).hash with
      | none => none
      | some (h', _) => rehashLoop old rest h'
    else rehashLoop old rest h

/-- `rehash(hmap, new_size)`: refuse sizes below `min_size`, otherwise
reinsert every occupied slot into a freshly calloc'd array of the new
size. -/
def rehash (h : Hashmap) (new_size : Nat) : Option Hashmap :=
  if new_size < h.min_size then some h
  else
    rehashLoop h.buckets (List.range h.alloc_size)
      { h with buckets := fun _ => emptyBucket, size := 0, alloc_size := new_size }

/-- `hashmap_get`: the stored value of the probed slot when filled,
`NULL` (= `0`) otherwise. -/
def hashmap_get (h : Hashmap) (key : List Nat) : Option Nat :=
  match get_bucket_index h key (hash_key h.key_size key) with
  | none => none
  | some index => some (if (h.buckets index).filled then (h.buckets index).value else 0)

/-- `hashmap_may_get`: presence flag plus the value written through
`*out_value` (written only on success, modelled as `Option`). -/
def hashmap_may_get (h : Hashmap) (key : List Nat) : Option (Bool × Option Nat) :=
  match get_bucket_index h key (hash_key h.key_size key) with
  | none => none
  | some index =>
    if (h.buckets index).filled then some (true, some (h.buckets index).value)
    else some (false, none)

/-- `hashmap_has`. -/
def hashmap_has (h : Hashmap) (key : List Nat) : Option Bool :=
  match get_bucket_index h key (hash_key h.key_size key) with
  | none => none
  | some index => some (h.buckets index).filled

/-- `hashmap_set`: growth check first (`size >= alloc_size >> 1` doubles
the capacity via `rehash`), then the key is copied under copy-mode, then
`hashmap_set_lower` with the key's hash. -/
def hashmap_set (h : Hashmap) (key : List Nat) (value : Nat) : Option (Hashmap × Nat) :=
  let grown := if h.size ≥ h.alloc_size / 2 then rehash h (h.alloc_size * 2) else some h
  match grown with
  | none => none
  | some h1 =>
    let key' := if h1.copy_keys then copy_key h1.key_size key else key
    hashmap_set_lower h1 key' value (hash_key h1.key_size key')

/-- The shift decision of `hashmap_remove`'s compaction loop, verbatim
from the two wraparound cases of the C code. -/
def filterCond (last index desired : Nat) : Bool :=
  if desired < index then decide (last < index) && decide (desired ≤ last)
  else if index < desired then decide (last < index) || decide (desired ≤ last)
  else false

/-- The backward-shift loop of `hashmap_remove`: advance with wraparound,
stop at the first empty slot, and copy each slot whose `desired_idx`
passes `filterCond` down into the last vacated position.  Returns the
shifted array and the final vacated index. -/
def removeAux (bsf : Nat → Bucket) (n : Nat) :
    Nat → Nat → Nat → Option ((Nat → Bucket) × Nat)
  | _, _, 0 => none
  | last, index, fuel + 1 =>
    let index' := (index + 1) % n
    let b := bsf index'
    if b.filled = false then some (bsf, last)
    else if filterCond last index' b.desired_idx then
      removeAux (Function.update bsf last b) n index' index' fuel
    else removeAux bsf n last index' fuel

/-- `hashmap_remove`: probe; if the slot is filled, capture its value,
run the compaction loop, clear the `filled` flag of the final vacated
slot (the key pointer of that slot is *not* cleared, exactly as in the C
code), decrement the count and apply the shrink trigger.  An absent key
returns `NULL` and the table untouched. -/
def hashmap_remove (h : Hashmap) (key : List Nat) : Option (Hashmap × Nat) :=
  match get_bucket_index h key (hash_key h.key_size key) with
  | none => none
  | some index =>
    let b := h.buckets index
    if b.filled then
      match removeAux h.buckets h.alloc_size index index h.alloc_size with
      | none => none
      | some (bsf, last) =>
        let bl := bsf last
        let h' : Hashmap :=
          { h with buckets := Function.update bsf last { bl with filled := false },
                   size := h.size - 1 }
        if h'.size < h'.alloc_size / 4 then
          match rehash h' (h'.alloc_size / 2) with
          | none => none
          | some h'' => some (h'', b.value)
        else some (h', b.value)
    else some (h, 0)

/-! ### Iterator (`struct ghh_hmapiter`) -/

/-- Scan for the first filled slot at index `≥ p` (the inner `do … while`
of `hmapiter_next`). -/
def iterFind (h : Hashmap) (p : Nat) : Option Nat :=
  if hp : p < h.alloc_size then
    if (h.buckets p).filled then some p else iterFind h (p + 1)
  else none
termination_by h.alloc_size - p

/-- `hmapiter_next` on iterator position `idx` (`-1` = not started):
returns the new position, the success flag, and the key/value written
through the out parameters (`NULL`/`NULL` on failure, which also resets
the position to `-1`). -/
def hmapiter_next (h : Hashmap) (idx : Int) : Int × Bool × Option (List Nat) × Nat :=
  match iterFind h (idx + 1).toNat with
  | some j => ((j : Int), true, (h.buckets j).key, (h.buckets j).value)
  | none => (-1, false, none, 0)

/-- `hmapiter_reset`. -/
def hmapiter_reset : Int := -1

/-- Drive the iterator: repeatedly call `hmapiter_next`, collecting the
yielded (key, value) pairs until a call fails. -/
def iterRun (h : Hashmap) : Nat → Int → List (Option (List Nat) × Nat)
  | 0, _ => []
  | fuel + 1, idx =>
    match hmapiter_next h idx with
    | (idx', true, k, v) => (k, v) :: iterRun h fuel idx'
    | (_, false, _, _) => []

/-! ### Key equality and hashing: basic laws -/

theorem key_equals_var_refl : ∀ a, key_equals_var a a = true
  | [] => rfl
  | a :: as => by
    have h1 : (a == a) = true := by simp
    simp only [key_equals_var, h1, Bool.true_and]
    rcases Nat.eq_zero_or_pos a with ha | ha
    · subst ha; simp
    · have : (a == 0) = false := by simpa using Nat.pos_iff_ne_zero.mp ha
      simp [this, key_equals_var_refl as]

theorem key_equals_fixed_refl : ∀ n a, key_equals_fixed n a a = true
  | 0, _ => rfl
  | _ + 1, [] => rfl
  | n + 1, a :: as => by
    simp [key_equals_fixed, key_equals_fixed_refl n as]

theorem key_equals_refl (ks : Int) (a : List Nat) : key_equals ks a a = true := by
  unfold key_equals
  split
  · exact key_equals_var_refl a
  · exact key_equals_fixed_refl _ a

theorem key_equals_var_symm : ∀ a b, key_equals_var a b = key_equals_var b a
  | [], [] => rfl
  | [], _ :: _ => rfl
  | _ :: _, [] => rfl
  | a :: as, b :: bs => by
    simp only [key_equals_var]
    by_cases hab : a = b
    · subst hab; rw [key_equals_var_symm as bs]
    · have h1 : (a == b) = false := by simpa using hab
      have h2 : (b == a) = false := by simpa using Ne.symm hab
      simp [h1, h2]

theorem key_equals_fixed_symm : ∀ n a b, key_equals_fixed n a b = key_equals_fixed n b a
  | 0, _, _ => rfl
  | _ + 1, [], [] => rfl
  | _ + 1, [], _ :: _ => rfl
  | _ + 1, _ :: _, [] => rfl
  | n + 1, a :: as, b :: bs => by
    simp only [key_equals_fixed]
    by_cases hab : a = b
    · subst hab; rw [key_equals_fixed_symm n as bs]
    · have h1 : (a == b) = false := by simpa using hab
      have h2 : (b == a) = false := by simpa using Ne.symm hab
      simp [h1, h2]

theorem key_equals_symm (ks : Int) (a b : List Nat) :
    key_equals ks a b = key_equals ks b a := by
  unfold key_equals
  split
  · exact key_equals_var_symm a b
  · exact key_equals_fixed_symm _ a b

theorem key_equals_var_trans : ∀ a b c, key_equals_var a b = true →
    key_equals_var b c = true → key_equals_var a c = true
  | [], [], [] => fun _ _ => rfl
  | [], [], _ :: _ => fun _ h => by simpa [key_equals_var] using h
  | [], _ :: _, _ => fun h _ => by simpa [key_equals_var] using h
  | _ :: _, [], _ => fun h _ => by simpa [key_equals_var] using h
  | _ :: _, _ :: _, [] => fun _ h => by simpa [key_equals_var] using h
  | a :: as, b :: bs, c :: cs => by
    simp only [key_equals_var, Bool.and_eq_true, Bool.or_eq_true, beq_iff_eq]
    rintro ⟨rfl, h1⟩ ⟨rfl, h2⟩
    refine ⟨rfl, ?_⟩
    rcases h1 with h1 | h1
    · exact Or.inl h1
    · rcases h2 with h2 | h2
      · exact Or.inl h2
      · exact Or.inr (key_equals_var_trans as bs cs h1 h2)

theorem key_equals_fixed_trans : ∀ n a b c, key_equals_fixed n a b = true →
    key_equals_fixed n b c = true → key_equals_fixed n a c = true
  | 0, _, _, _ => fun _ _ => rfl
  | _ + 1, [], [], [] => fun _ _ => rfl
  | _ + 1, [], [], _ :: _ => fun _ h => by simpa [key_equals_fixed] using h
  | _ + 1, [], _ :: _, _ => fun h _ => by simpa [key_equals_fixed] using h
  | _ + 1, _ :: _, [], _ => fun h _ => by simpa [key_equals_fixed] using h
  | _ + 1, _ :: _, _ :: _, [] => fun _ h => by simpa [key_equals_fixed] using h
  | n + 1, a :: as, b :: bs, c :: cs => by
    simp only [key_equals_fixed, Bool.and_eq_true, beq_iff_eq]
    rintro ⟨rfl, h1⟩ ⟨rfl, h2⟩
    exact ⟨rfl, key_equals_fixed_trans n as bs cs h1 h2⟩

theorem key_equals_trans (ks : Int) (a b c : List Nat)
    (h1 : key_equals ks a b = true) (h2 : key_equals ks b c = true) :
    key_equals ks a c = true := by
  unfold key_equals at *
  split at h1 <;> rename_i hks
  · rw [if_pos hks] at h2 ⊢; exact key_equals_var_trans a b c h1 h2
  · rw [if_neg hks] at h2 ⊢; exact key_equals_fixed_trans _ a b c h1 h2

theorem hashVarAux_congr : ∀ a b, key_equals_var a b = true →
    ∀ acc, hashVarAux acc a = hashVarAux acc b
  | [], [], _ => fun _ => rfl
  | [], _ :: _, h => by simp [key_equals_var] at h
  | _ :: _, [], h => by simp [key_equals_var] at h
  | a :: as, b :: bs, h => by
    intro acc
    simp only [key_equals_var, Bool.and_eq_true, Bool.or_eq_true, beq_iff_eq] at h
    obtain ⟨rfl, h⟩ := h
    simp only [hashVarAux]
    rcases Nat.eq_zero_or_pos a with rfl | ha
    · simp
    · have ha' : a ≠ 0 := Nat.pos_iff_ne_zero.mp ha
      rcases h with h | h
      · exact absurd h ha'
      · simp only [if_neg ha']
        exact hashVarAux_congr as bs h _

theorem hashFixedAux_congr : ∀ n a b, key_equals_fixed n a b = true →
    ∀ acc, hashFixedAux acc n a = hashFixedAux acc n b
  | 0, _, _, _ => fun _ => rfl
  | _ + 1, [], [], _ => fun _ => rfl
  | _ + 1, [], _ :: _, h => by simp [key_equals_fixed] at h
  | _ + 1, _ :: _, [], h => by simp [key_equals_fixed] at h
  | n + 1, a :: as, b :: bs, h => by
    intro acc
    simp only [key_equals_fixed, Bool.and_eq_true, beq_iff_eq] at h
    obtain ⟨rfl, h⟩ := h
    simp only [hashFixedAux]
    exact hashFixedAux_congr n as bs h _

/-- Keys that the table considers equal have equal hashes: `hash_key` and
`key_equals` inspect the same byte span (fixed mode) or prefixes
determined by the same terminator (variable mode). -/
theorem hash_key_congr (ks : Int) (a b : List Nat)
    (h : key_equals ks a b = true) : hash_key ks a = hash_key ks b := by
  unfold key_equals at h
  unfold hash_key
  split at h <;> rename_i hks
  · simp only [if_pos hks]; exact hashVarAux_congr a b h _
  · simp only [if_neg hks]; exact hashFixedAux_congr _ a b h _

/-! ### `copy_key` agrees with the original key -/

theorem key_equals_var_copy : ∀ k, 0 ∈ k →
    key_equals_var k (k.takeWhile (fun b => b ≠ 0) ++ [0]) = true := by
  intro k hk
  induction k with
  | nil => cases hk
  | cons a as ih =>
    rcases Nat.eq_zero_or_pos a with rfl | ha
    · simp [List.takeWhile, key_equals_var]
    · have ha' : a ≠ 0 := Nat.pos_iff_ne_zero.mp ha
      have hmem : (0 : Nat) ∈ as := by
        rcases List.mem_cons.mp hk with h | h
        · exact absurd h.symm ha'
        · exact h
      have htw : (a :: as).takeWhile (fun b => decide (b ≠ 0)) =
          a :: as.takeWhile (fun b => decide (b ≠ 0)) := by
        simp [List.takeWhile, ha']
      rw [htw, List.cons_append]
      have h1 : (a == a) = true := by simp
      have h2 : (a == 0) = false := by simpa using ha'
      simp only [key_equals_var, h1, h2, Bool.true_and, Bool.false_or]
      exact ih hmem

theorem hashVarAux_append_zero : ∀ k acc, 0 ∈ k →
    hashVarAux acc (k.takeWhile (fun b => b ≠ 0) ++ [0]) = hashVarAux acc k := by
  intro k
  induction k with
  | nil => intro acc h; cases h
  | cons a as ih =>
    intro acc hk
    rcases Nat.eq_zero_or_pos a with rfl | ha
    · simp [List.takeWhile, hashVarAux]
    · have ha' : a ≠ 0 := Nat.pos_iff_ne_zero.mp ha
      have hmem : (0 : Nat) ∈ as := by
        rcases List.mem_cons.mp hk with h | h
        · exact absurd h.symm ha'
        · exact h
      have htw : (a :: as).takeWhile (fun b => decide (b ≠ 0)) =
          a :: as.takeWhile (fun b => decide (b ≠ 0)) := by
        simp [List.takeWhile, ha']
      simp only [htw, List.cons_append, hashVarAux, if_neg ha']
      exact ih _ hmem

theorem key_equals_fixed_take : ∀ n k, key_equals_fixed n k (k.take n) = true
  | 0, _ => rfl
  | _ + 1, [] => rfl
  | n + 1, a :: as => by
    simp [List.take, key_equals_fixed, key_equals_fixed_take n as]

theorem hashFixedAux_take : ∀ n k acc, hashFixedAux acc n (k.take n) = hashFixedAux acc n k
  | 0, _, _ => rfl
  | _ + 1, [], _ => rfl
  | n + 1, a :: as, acc => by
    simp [List.take, hashFixedAux, hashFixedAux_take n as]

/-- The private copy stored under copy-mode is `key_equals`-equal to the
original key and has the same hash.  In variable-length mode this needs
the key to be well-formed (to actually contain a terminator); a key
without one is caller misuse (the C `copy_key` would read out of
bounds). -/
theorem copy_key_spec (ks : Int) (k : List Nat) (hwf : ks < 0 → (0 : Nat) ∈ k) :
    key_equals ks k (copy_key ks k) = true ∧
      hash_key ks (copy_key ks k) = hash_key ks k := by
  unfold key_equals copy_key hash_key
  by_cases hks : ks < 0
  · simp only [if_pos hks]
    exact ⟨key_equals_var_copy k (hwf hks), hashVarAux_append_zero k _ (hwf hks)⟩
  · simp only [if_neg hks]
    exact ⟨key_equals_fixed_take _ k, hashFixedAux_take _ k _⟩

/-! ### Cyclic distance toolkit -/

/-- Forward cyclic distance from `a` to `b` in an array of `n` slots
(both indices `< n`). -/
def cdist (n a b : Nat) : Nat := if a ≤ b then b - a else b + n - a

/-- Advance `a` by `t` slots with wraparound. -/
def addc (n a t : Nat) : Nat := (a + t) % n

/-- `j` lies on the linear probe path from `d` strictly before `i`:
the cyclic half-open interval `[d, i)`. -/
def chainMem (n d j i : Nat) : Prop := cdist n d j < cdist n d i

instance (n d j i : Nat) : Decidable (chainMem n d j i) := by
  unfold chainMem; infer_instance

theorem mod_small (n x : Nat) (hn : 0 < n) (hx : x < 2 * n) :
    x % n = if x < n then x else x - n := by
  split <;> rename_i h
  · exact Nat.mod_eq_of_lt h
  · rw [Nat.mod_eq_sub_mod (by omega)]
    exact Nat.mod_eq_of_lt (by omega)

theorem addc_lt (n a t : Nat) (hn : 0 < n) : addc n a t < n := Nat.mod_lt _ hn

theorem addc_zero (n a : Nat) (ha : a < n) : addc n a 0 = a := by
  unfold addc; simpa using Nat.mod_eq_of_lt ha

theorem addc_succ (n a t : Nat) : (addc n a t + 1) % n = addc n a (t + 1) := by
  unfold addc
  rw [Nat.mod_add_mod, Nat.add_assoc]

theorem cdist_lt (n a b : Nat) (ha : a < n) (hb : b < n) : cdist n a b < n := by
  unfold cdist; split <;> omega

theorem cdist_self (n a : Nat) : cdist n a a = 0 := by
  unfold cdist; simp

theorem cdist_eq_zero (n a b : Nat) (ha : a < n) (hb : b < n)
    (h : cdist n a b = 0) : a = b := by
  unfold cdist at h; split at h <;> omega

theorem cdist_addc (n a t : Nat) (ha : a < n) (ht : t < n) :
    cdist n a (addc n a t) = t := by
  unfold addc
  rw [mod_small n (a + t) (by omega) (by omega)]
  unfold cdist
  split <;> split <;> omega

theorem addc_cdist (n a b : Nat) (ha : a < n) (hb : b < n) :
    addc n a (cdist n a b) = b := by
  unfold cdist addc
  split <;> rename_i h
  · rw [Nat.mod_eq_of_lt (by omega)]; omega
  · have : a + (b + n - a) = b + n := by omega
    rw [this]
    rw [mod_small n (b + n) (by omega) (by omega)]
    split <;> omega

theorem cdist_addc_addc (n i0 s u : Nat) (h0 : i0 < n) (hs : s < n) (hu : u < n) :
    cdist n (addc n i0 s) (addc n i0 u) = cdist n s u := by
  have h1 := mod_small n (i0 + s) (by omega) (by omega)
  have h2 := mod_small n (i0 + u) (by omega) (by omega)
  unfold cdist addc
  rw [h1, h2]
  split_ifs <;> omega

/-! ### Counting filled buckets -/

/-- Number of filled slots among the first `n` buckets. -/
def countFilled (bsf : Nat → Bucket) (n : Nat) : Nat :=
  (List.range n).countP (fun j => (bsf j).filled)

theorem countFilled_congr (f g : Nat → Bucket) (n : Nat)
    (h : ∀ j, j < n → (f j).filled = (g j).filled) :
    countFilled f n = countFilled g n := by
  unfold countFilled
  refine List.countP_congr ?_
  intro j hj
  simp only [List.mem_range] at hj
  simp [h j hj]

theorem countFilled_update (f : Nat → Bucket) (n j : Nat) (b : Bucket) (hj : j < n) :
    countFilled (Function.update f j b) n + (if (f j).filled then 1 else 0) =
      countFilled f n + (if b.filled then 1 else 0) := by
  induction n with
  | zero => omega
  | succ m ih =>
    unfold countFilled at *
    rw [List.range_succ, List.countP_append, List.countP_append] at *
    rcases Nat.lt_or_ge j m with hjm | hjm
    · have hne : m ≠ j := by omega
      have : Function.update f j b m = f m := Function.update_noteq hne _ _
      simp only [List.countP_cons, List.countP_nil, this]
      have := ih hjm
      omega
    · have hj' : j = m := by omega
      subst hj'
      have heq : (List.range j).countP (fun i => (Function.update f j b i).filled) =
          (List.range j).countP (fun i => (f i).filled) := by
        refine List.countP_congr ?_
        intro x hx
        simp only [List.mem_range] at hx
        have hne : x ≠ j := by omega
        simp [Function.update_noteq hne]
      rw [heq]
      simp only [List.countP_cons, List.countP_nil, Function.update_same]
      omega

theorem countFilled_lt_exists_empty (f : Nat → Bucket) (n : Nat)
    (h : countFilled f n < n) : ∃ j, j < n ∧ (f j).filled = false := by
  by_contra hc
  push_neg at hc
  have : countFilled f n = n := by
    unfold countFilled
    have : ∀ j ∈ List.range n, ((f j).filled : Bool) = true := by
      intro j hj
      simp only [List.mem_range] at hj
      have := hc j hj
      simpa using this
    calc (List.range n).countP (fun j => (f j).filled)
        = (List.range n).length := List.countP_eq_length.mpr this
      _ = n := List.length_range n
  omega

/-! ### Probe characterization -/

/-- The probe loop stops at slot `j` iff `j` is empty or matches the
query (cached hash equal and byte-equal key). -/
def stopAt (ks : Int) (bsf : Nat → Bucket) (q : List Nat) (qh : Nat) (j : Nat) : Prop :=
  (bsf j).filled = false ∨
    ((bsf j).hash = qh ∧ key_equals ks q (bkey (bsf j)) = true)

instance (ks : Int) (bsf : Nat → Bucket) (q : List Nat) (qh : Nat) (j : Nat) :
    Decidable (stopAt ks bsf q qh j) := by
  unfold stopAt; infer_instance

theorem addc_addc (n a s u : Nat) : addc n (addc n a s) u = addc n a (s + u) := by
  unfold addc
  rw [Nat.mod_add_mod, Nat.add_assoc]

theorem not_stopAt_continue (ks : Int) (bsf : Nat → Bucket) (q : List Nat) (qh j : Nat) :
    ((bsf j).filled = true ∧
      ¬((bsf j).hash = qh ∧ key_equals ks q (bkey (bsf j)) = true)) ↔
    ¬stopAt ks bsf q qh j := by
  unfold stopAt
  constructor
  · rintro ⟨h1, h2⟩ (h | h)
    · rw [h1] at h; cases h
    · exact h2 h
  · intro h
    constructor
    · by_cases hf : (bsf j).filled = true
      · exact hf
      · exact absurd (Or.inl (by simpa using hf)) h
    · intro hm
      exact h (Or.inr hm)

/-- Fuelled probe loop: if some slot within `fuel` steps of `start` is a
stopping slot, the loop returns the first such slot. -/
theorem probeAux_spec (ks : Int) (bsf : Nat → Bucket) (n : Nat) (q : List Nat) (qh : Nat)
    (hn : 0 < n) :
    ∀ fuel start, start < n →
      (∃ t, t < fuel ∧ stopAt ks bsf q qh (addc n start t)) →
      ∃ t, t < fuel ∧ probeAux ks bsf n q qh start fuel = some (addc n start t) ∧
        stopAt ks bsf q qh (addc n start t) ∧
        ∀ s, s < t → ¬stopAt ks bsf q qh (addc n start s) := by
  intro fuel
  induction fuel with
  | zero => rintro start _ ⟨t, ht, _⟩; omega
  | succ fuel ih =>
    intro start hstart hex
    by_cases hstop : stopAt ks bsf q qh start
    · refine ⟨0, by omega, ?_, by rwa [addc_zero n start hstart], by omega⟩
      have hcond : ¬((bsf start).filled = true ∧
          ¬((bsf start).hash = qh ∧ key_equals ks q (bkey (bsf start)) = true)) := by
        rw [not_stopAt_continue]; exact not_not_intro hstop
      simp only [probeAux, if_neg hcond]
      rw [addc_zero n start hstart]
    · have hcond : (bsf start).filled = true ∧
          ¬((bsf start).hash = qh ∧ key_equals ks q (bkey (bsf start)) = true) :=
        (not_stopAt_continue ks bsf q qh start).mpr hstop
      have hstep : probeAux ks bsf n q qh start (fuel + 1) =
          probeAux ks bsf n q qh ((start + 1) % n) fuel := by
        simp only [probeAux, if_pos hcond]
      have hstart1 : (start + 1) % n = addc n start 1 := by unfold addc; rfl
      obtain ⟨t, htf, htstop⟩ := hex
      have ht0 : t ≠ 0 := by
        intro h; subst h
        rw [addc_zero n start hstart] at htstop
        exact hstop htstop
      obtain ⟨t', rfl⟩ : ∃ t', t = t' + 1 := ⟨t - 1, by omega⟩
      have hex' : ∃ s, s < fuel ∧ stopAt ks bsf q qh (addc n (addc n start 1) s) := by
        refine ⟨t', by omega, ?_⟩
        rw [addc_addc]
        have : 1 + t' = t' + 1 := by omega
        rwa [this]
      obtain ⟨t₂, ht₂f, ht₂eq, ht₂stop, ht₂min⟩ :=
        ih (addc n start 1) (addc_lt n start 1 hn) hex'
      refine ⟨t₂ + 1, by omega, ?_, ?_, ?_⟩
      · rw [hstep, hstart1, ht₂eq, addc_addc, Nat.add_comm 1 t₂]
      · rw [← Nat.add_comm 1 t₂, ← addc_addc]
        exact ht₂stop
      · intro s hs
        rcases Nat.eq_zero_or_pos s with rfl | hspos
        · rwa [addc_zero n start hstart]
        · obtain ⟨s', rfl⟩ : ∃ s', s = s' + 1 := ⟨s - 1, by omega⟩
          have := ht₂min s' (by omega)
          rw [addc_addc] at this
          rwa [Nat.add_comm 1 s'] at this

/-- `get_bucket_index` finds the unique first stopping slot of the probe
sequence, provided the table has at least one empty slot. -/
theorem get_bucket_index_spec (h : Hashmap) (q : List Nat) (qh : Nat)
    (hn : 0 < h.alloc_size)
    (hroom : ∃ j, j < h.alloc_size ∧ (h.buckets j).filled = false) :
    ∃ i, i < h.alloc_size ∧ get_bucket_index h q qh = some i ∧
      stopAt h.key_size h.buckets q qh i ∧
      ∀ j, j < h.alloc_size → chainMem h.alloc_size (qh % h.alloc_size) j i →
        ¬stopAt h.key_size h.buckets q qh j := by
  set n := h.alloc_size with hn_def
  set start := qh % n with hstart_def
  have hstart : start < n := Nat.mod_lt _ hn
  obtain ⟨j, hj, hjempty⟩ := hroom
  have hex : ∃ t, t < n ∧ stopAt h.key_size h.buckets q qh (addc n start t) := by
    refine ⟨cdist n start j, cdist_lt n start j hstart hj, ?_⟩
    rw [addc_cdist n start j hstart hj]
    exact Or.inl hjempty
  obtain ⟨t, htn, hteq, htstop, htmin⟩ :=
    probeAux_spec h.key_size h.buckets n q qh hn n start hstart hex
  refine ⟨addc n start t, addc_lt n start t hn, hteq, htstop, ?_⟩
  intro j' hj' hchain
  have hcd : cdist n start j' < t := by
    have := hchain
    unfold chainMem at this
    rwa [cdist_addc n start t hstart htn] at this
  have := htmin (cdist n start j') hcd
  rwa [addc_cdist n start j' hstart hj'] at this

/-- If `i` itself is a stopping slot and nothing on the probe path before
it stops the scan, the probe returns exactly `i`. -/
theorem get_bucket_index_eq (h : Hashmap) (q : List Nat) (qh : Nat)
    (hn : 0 < h.alloc_size) (i : Nat) (hi : i < h.alloc_size)
    (hstop : stopAt h.key_size h.buckets q qh i)
    (hclean : ∀ j, j < h.alloc_size → chainMem h.alloc_size (qh % h.alloc_size) j i →
      ¬stopAt h.key_size h.buckets q qh j) :
    get_bucket_index h q qh = some i := by
  set n := h.alloc_size with hn_def
  set start := qh % n with hstart_def
  have hstart : start < n := Nat.mod_lt _ hn
  have hex : ∃ t, t < n ∧ stopAt h.key_size h.buckets q qh (addc n start t) := by
    refine ⟨cdist n start i, cdist_lt n start i hstart hi, ?_⟩
    rw [addc_cdist n start i hstart hi]
    exact hstop
  obtain ⟨t, htn, hteq, htstop, htmin⟩ :=
    probeAux_spec h.key_size h.buckets n q qh hn n start hstart hex
  have htd : t = cdist n start i := by
    rcases Nat.lt_trichotomy t (cdist n start i) with hlt | heq | hgt
    · exfalso
      refine hclean (addc n start t) (addc_lt n start t hn) ?_ htstop
      unfold chainMem
      rwa [cdist_addc n start t hstart htn]
    · exact heq
    · exfalso
      have := htmin (cdist n start i) hgt
      rw [addc_cdist n start i hstart hi] at this
      exact this hstop
  rw [htd, addc_cdist n start i hstart hi] at hteq
  exact hteq

/-! ### The table invariant -/

/-- Bucket-array invariant: every filled slot has a non-null key pointer,
a cached hash equal to the hash of its key bytes, a `desired_idx`
computed from that hash and the current capacity, an unbroken probe
chain from its desired index, and a key distinct from every other filled
slot's key. -/
def InvAt (ks : Int) (bsf : Nat → Bucket) (n : Nat) : Prop :=
  ∀ i, i < n → (bsf i).filled = true →
    (bsf i).key ≠ none ∧
    (bsf i).hash = hash_key ks (bkey (bsf i)) ∧
    (bsf i).desired_idx = (bsf i).hash % n ∧
    (∀ j, j < n → chainMem n (bsf i).desired_idx j i → (bsf j).filled = true) ∧
    (∀ j, j < n → j ≠ i → (bsf j).filled = true →
      ¬((bsf j).hash = (bsf i).hash ∧
        key_equals ks (bkey (bsf i)) (bkey (bsf j)) = true))

/-- Full table invariant, holding in every state reachable from
`hashmap_create` by `hashmap_set` / `hashmap_remove`. -/
def Inv (h : Hashmap) : Prop :=
  MIN_HASHMAP_SIZE ≤ h.min_size ∧
  (∃ k, k < h.alloc_size ∧ h.alloc_size = h.min_size * 2 ^ k) ∧
  h.size = countFilled h.buckets h.alloc_size ∧
  2 * h.size ≤ h.alloc_size ∧
  InvAt h.key_size h.buckets h.alloc_size

set_option synthInstance.maxSize 1024 in
instance (ks : Int) (bsf : Nat → Bucket) (n : Nat) : Decidable (InvAt ks bsf n) := by
  unfold InvAt; infer_instance

instance (h : Hashmap) : Decidable (Inv h) := by
  unfold Inv; infer_instance

theorem Inv.alloc_pos (h : Hashmap) (hI : Inv h) : 0 < h.alloc_size := by
  obtain ⟨hmin, ⟨k, _, hk⟩, _, _, _⟩ := hI
  have : (0:Nat) < 2 ^ k := Nat.pos_pow_of_pos k (by omega)
  unfold MIN_HASHMAP_SIZE at hmin
  calc 0 < h.min_size * 2 ^ k := Nat.mul_pos (by omega) this
    _ = h.alloc_size := hk.symm

theorem Inv.room (h : Hashmap) (hI : Inv h) :
    ∃ j, j < h.alloc_size ∧ (h.buckets j).filled = false := by
  have hpos := Inv.alloc_pos h hI
  obtain ⟨hmin, hpow, hcount, hload, _⟩ := hI
  refine countFilled_lt_exists_empty h.buckets h.alloc_size ?_
  unfold MIN_HASHMAP_SIZE at hmin
  omega

/-- The key/value association stored in the table: some filled slot
matches the query key and holds value `v`. -/
def MapsTo (h : Hashmap) (q : List Nat) (v : Nat) : Prop :=
  ∃ i, i < h.alloc_size ∧ (h.buckets i).filled = true ∧
    (h.buckets i).hash = hash_key h.key_size q ∧
    key_equals h.key_size q (bkey (h.buckets i)) = true ∧
    (h.buckets i).value = v

/-- Some filled slot matches the query key. -/
def HasKey (h : Hashmap) (q : List Nat) : Prop :=
  ∃ i, i < h.alloc_size ∧ (h.buckets i).filled = true ∧
    (h.buckets i).hash = hash_key h.key_size q ∧
    key_equals h.key_size q (bkey (h.buckets i)) = true

instance (h : Hashmap) (q : List Nat) (v : Nat) : Decidable (MapsTo h q v) := by
  unfold MapsTo; infer_instance

instance (h : Hashmap) (q : List Nat) : Decidable (HasKey h q) := by
  unfold HasKey; infer_instance

/-- Two distinct filled slots can never both match one query key. -/
theorem matching_slot_unique (ks : Int) (bsf : Nat → Bucket) (n : Nat)
    (hInv : InvAt ks bsf n) (q : List Nat) (i j : Nat)
    (hi : i < n) (hj : j < n) (hij : i ≠ j)
    (hfi : (bsf i).filled = true) (hfj : (bsf j).filled = true)
    (hhi : (bsf i).hash = hash_key ks q) (hhj : (bsf j).hash = hash_key ks q)
    (hki : key_equals ks q (bkey (bsf i)) = true)
    (hkj : key_equals ks q (bkey (bsf j)) = true) : False := by
  obtain ⟨_, _, _, _, hdist⟩ := hInv i hi hfi
  refine hdist j hj (Ne.symm hij) hfj ⟨by rw [hhi, hhj], ?_⟩
  have h1 : key_equals ks (bkey (bsf i)) q = true := by
    rw [key_equals_symm]; exact hki
  exact key_equals_trans ks (bkey (bsf i)) q (bkey (bsf j)) h1 hkj

theorem MapsTo_unique (h : Hashmap) (hI : Inv h) (q : List Nat) (v w : Nat)
    (hv : MapsTo h q v) (hw : MapsTo h q w) : v = w := by
  obtain ⟨_, _, _, _, hInv⟩ := hI
  obtain ⟨i, hi, hfi, hhi, hki, hvi⟩ := hv
  obtain ⟨j, hj, hfj, hhj, hkj, hvj⟩ := hw
  by_cases hij : i = j
  · subst hij; omega
  · exact absurd (matching_slot_unique h.key_size h.buckets h.alloc_size hInv q i j
      hi hj hij hfi hfj hhi hhj hki hkj) (by simp)

/-- Under the invariant a matching slot is exactly where the probe stops:
its chain is filled, and nothing on the chain matches the query. -/
theorem probe_finds_match (h : Hashmap) (hI : Inv h) (q : List Nat) (i : Nat)
    (hi : i < h.alloc_size) (hfi : (h.buckets i).filled = true)
    (hhi : (h.buckets i).hash = hash_key h.key_size q)
    (hki : key_equals h.key_size q (bkey (h.buckets i)) = true) :
    get_bucket_index h q (hash_key h.key_size q) = some i := by
  have hn := Inv.alloc_pos h hI
  obtain ⟨_, _, _, _, hInv⟩ := hI
  refine get_bucket_index_eq h q (hash_key h.key_size q) hn i hi
    (Or.inr ⟨hhi, hki⟩) ?_
  intro j hj hchain
  obtain ⟨_, _, hdes, hchainfill, _⟩ := hInv i hi hfi
  have hdes' : (h.buckets i).desired_idx = hash_key h.key_size q % h.alloc_size := by
    rw [hdes, hhi]
  have hfj : (h.buckets j).filled = true := by
    refine hchainfill j hj ?_
    rwa [hdes']
  have hji : j ≠ i := by
    intro hk; subst hk
    unfold chainMem at hchain
    omega
  rintro (hempty | ⟨hhj, hkj⟩)
  · rw [hfj] at hempty; cases hempty
  · exact matching_slot_unique h.key_size h.buckets h.alloc_size hInv q i j hi hj
      (Ne.symm hji) hfi hfj hhi (by rw [hhj]) hki hkj

/-- Lookup of a present key returns its stored value (all three lookup
entry points). -/
theorem lookup_found (h : Hashmap) (hI : Inv h) (q : List Nat) (v : Nat)
    (hm : MapsTo h q v) :
    hashmap_get h q = some v ∧ hashmap_may_get h q = some (true, some v) ∧
      hashmap_has h q = some true := by
  obtain ⟨i, hi, hfi, hhi, hki, hvi⟩ := hm
  have hgbi := probe_finds_match h hI q i hi hfi hhi hki
  refine ⟨?_, ?_, ?_⟩
  · unfold hashmap_get
    rw [hgbi]
    simp [hfi, hvi]
  · unfold hashmap_may_get
    rw [hgbi]
    simp [hfi, hvi]
  · unfold hashmap_has
    rw [hgbi]
    simp [hfi]

/-- Lookup of an absent key stops on an empty slot: `get` returns the
null handle, `may_get` reports absence, `has` is false. -/
theorem lookup_absent (h : Hashmap) (hI : Inv h) (q : List Nat)
    (habs : ¬HasKey h q) :
    hashmap_get h q = some 0 ∧ hashmap_may_get h q = some (false, none) ∧
      hashmap_has h q = some false := by
  have hn := Inv.alloc_pos h hI
  obtain ⟨i, hi, hgbi, hstop, _⟩ :=
    get_bucket_index_spec h q (hash_key h.key_size q) hn (Inv.room h hI)
  have hempty : (h.buckets i).filled = false := by
    by_cases hf : (h.buckets i).filled = true
    · exfalso
      rcases hstop with hs | ⟨hh, hk⟩
      · rw [hf] at hs; cases hs
      · exact habs ⟨i, hi, hf, hh, hk⟩
    · simpa using hf
  refine ⟨?_, ?_, ?_⟩
  · unfold hashmap_get
    rw [hgbi]
    simp [hempty]
  · unfold hashmap_may_get
    rw [hgbi]
    simp [hempty]
  · unfold hashmap_has
    rw [hgbi]
    simp [hempty]

/-! ### Correctness of `hashmap_set_lower` -/

theorem cdist_inj (n a b c : Nat) (ha : a < n) (hb : b < n) (hc : c < n)
    (h : cdist n a b = cdist n a c) : b = c := by
  have h1 := addc_cdist n a b ha hb
  have h2 := addc_cdist n a c ha hc
  rw [← h1, ← h2, h]

theorem MapsTo_unique_at (h : Hashmap)
    (hInv : InvAt h.key_size h.buckets h.alloc_size) (q : List Nat) (v w : Nat)
    (hv : MapsTo h q v) (hw : MapsTo h q w) : v = w := by
  obtain ⟨i, hi, hfi, hhi, hki, hvi⟩ := hv
  obtain ⟨j, hj, hfj, hhj, hkj, hvj⟩ := hw
  by_cases hij : i = j
  · subst hij; omega
  · exact absurd (matching_slot_unique h.key_size h.buckets h.alloc_size hInv q i j
      hi hj hij hfi hfj hhi hhj hki hkj) (by simp)

/-- Full contract of `hashmap_set_lower` under the bucket invariant:
the call succeeds, preserves the invariant and the count/array link,
binds `q` to `v`, leaves all other keys' bindings untouched, and
returns the previous value (null when the key was absent, in which case
the count grows by one). -/
theorem hashmap_set_lower_spec (h : Hashmap) (q : List Nat) (v qh : Nat)
    (hn : 0 < h.alloc_size)
    (hInv : InvAt h.key_size h.buckets h.alloc_size)
    (hcount : h.size = countFilled h.buckets h.alloc_size)
    (hroom : countFilled h.buckets h.alloc_size < h.alloc_size)
    (hqh : qh = hash_key h.key_size q) :
    ∃ h' old, hashmap_set_lower h q v qh = some (h', old) ∧
      h'.alloc_size = h.alloc_size ∧ h'.min_size = h.min_size ∧
      h'.key_size = h.key_size ∧ h'.copy_keys = h.copy_keys ∧
      InvAt h'.key_size h'.buckets h'.alloc_size ∧
      h'.size = countFilled h'.buckets h'.alloc_size ∧
      MapsTo h' q v ∧
      (∀ r w, ¬(key_equals h.key_size q r = true) → (MapsTo h' r w ↔ MapsTo h r w)) ∧
      (HasKey h q → h'.size = h.size ∧ ∃ w0, MapsTo h q w0 ∧ old = w0) ∧
      (¬HasKey h q → h'.size = h.size + 1 ∧ old = 0) := by
  set n := h.alloc_size with hn_def
  set ks := h.key_size with hks_def
  set start := qh % n with hstart_def
  have hstart : start < n := Nat.mod_lt _ hn
  obtain ⟨i, hi, hgbi, hstop, hclean⟩ :=
    get_bucket_index_spec h q qh hn (countFilled_lt_exists_empty h.buckets n hroom)
  by_cases hf : (h.buckets i).filled = true
  · -- update of an existing binding
    obtain hmatch : (h.buckets i).hash = qh ∧ key_equals ks q (bkey (h.buckets i)) = true := by
      rcases hstop with hs | hs
      · rw [hf] at hs; cases hs
      · exact hs
    obtain ⟨hhash_i, hkey_i⟩ := hmatch
    obtain ⟨hkne_i, hhk_i, hdes_i, hchain_i, hdist_i⟩ := hInv i hi hf
    set b := h.buckets i with hb_def
    set b' : Bucket :=
      { filled := true, desired_idx := b.hash % n, hash := b.hash,
        key := some q, value := v } with hbq_def
    set bsf' := Function.update h.buckets i b' with hbsfq_def
    set h' : Hashmap :=
      { h with buckets := bsf', size := h.size } with hhq_def
    have hfi' : (h.buckets i).filled = true := hf
    have hbf' : b'.filled = true := rfl
    have heq : hashmap_set_lower h q v qh = some (h', b.value) := by
      unfold hashmap_set_lower
      rw [hgbi]
      simp only [← hb_def, hf, if_true]
    have hupd_i : bsf' i = b' := Function.update_same i b' h.buckets
    have hupd_ne : ∀ j, j ≠ i → bsf' j = h.buckets j := by
      intro j hj
      exact Function.update_noteq hj b' h.buckets
    have hHas : HasKey h q :=
      ⟨i, hi, hf, show b.hash = hash_key ks q by rw [hhash_i, hqh], hkey_i⟩
    have hcount' : countFilled bsf' n = countFilled h.buckets n := by
      have hcu := countFilled_update h.buckets n i b' hi
      rw [← hbsfq_def] at hcu
      rw [hfi', hbf'] at hcu
      simp only [if_true] at hcu
      omega
    have hInv' : InvAt ks bsf' n := by
      intro m hm hfm
      by_cases hmi : m = i
      · subst hmi
        rw [hupd_i] at hfm ⊢
        refine ⟨by simp [hbq_def], ?_, by simp [hbq_def], ?_, ?_⟩
        · -- cached hash equals hash of the (new) key bytes
          have : bkey b' = q := by simp [hbq_def, bkey]
          rw [this]
          simp only [hbq_def]
          rw [hhash_i, hqh]
        · intro j hj hchain
          have hji : j ≠ m := by
            intro hk; subst hk
            unfold chainMem at hchain
            omega
          rw [hupd_ne j hji]
          have hchain2 : chainMem n b.desired_idx j m := by
            have hdd : b'.desired_idx = b.desired_idx := by
              simp only [hbq_def]
              rw [hdes_i]
            rwa [hdd] at hchain
          exact hchain_i j hj hchain2
        · intro j hj hjm hfj
          have hfj' : (h.buckets j).filled = true := by rwa [hupd_ne j hjm] at hfj
          rw [hupd_ne j hjm]
          rintro ⟨hhj, hkj⟩
          have hbk : bkey b' = q := by simp [hbq_def, bkey]
          rw [hbk] at hkj
          have hhj' : (h.buckets j).hash = b.hash := by
            simpa [hbq_def] using hhj
          refine hdist_i j hj hjm hfj' ⟨hhj', ?_⟩
          have h1 : key_equals ks (bkey b) q = true := by
            rw [key_equals_symm]; exact hkey_i
          exact key_equals_trans ks (bkey b) q (bkey (h.buckets j)) h1 hkj
      · rw [hupd_ne m hmi] at hfm ⊢
        obtain ⟨hk1, hk2, hk3, hk4, hk5⟩ := hInv m hm hfm
        refine ⟨hk1, hk2, hk3, ?_, ?_⟩
        · intro j hj hchain
          by_cases hji : j = i
          · subst hji
            rw [hupd_i]
          · rw [hupd_ne j hji]
            exact hk4 j hj hchain
        · intro j hj hjm hfj
          by_cases hji : j = i
          · subst hji
            rw [hupd_i]
            rintro ⟨hhj, hkj⟩
            have hbk : bkey b' = q := by simp [hbq_def, bkey]
            rw [hbk] at hkj
            have hhash_m : (h.buckets m).hash = hash_key ks q := by
              have : b'.hash = b.hash := by simp [hbq_def]
              rw [this] at hhj
              rw [← hhj, hhash_i, hqh]
            exact matching_slot_unique ks h.buckets n hInv q m j hm hi (Ne.symm hjm) hfm hf
              hhash_m (by show b.hash = hash_key ks q; rw [hhash_i, hqh])
              (by rw [key_equals_symm]; exact hkj) hkey_i
          · rw [hupd_ne j hji]
            exact hk5 j hj hjm (by rwa [hupd_ne j hji] at hfj)
    have hMaps : MapsTo h' q v := by
      refine ⟨i, hi, ?_, ?_, ?_, ?_⟩
      · show (bsf' i).filled = true
        rw [hupd_i]
      · show (bsf' i).hash = hash_key ks q
        rw [hupd_i]
        simp only [hbq_def]
        rw [hhash_i, hqh]
      · show key_equals ks q (bkey (bsf' i)) = true
        rw [hupd_i]
        have : bkey b' = q := by simp [hbq_def, bkey]
        rw [this]
        exact key_equals_refl ks q
      · show (bsf' i).value = v
        rw [hupd_i]
    refine ⟨h', b.value, heq, rfl, rfl, rfl, rfl, hInv', by
      show h.size = countFilled bsf' n
      rw [hcount', ← hcount], hMaps, ?_, ?_, ?_⟩
    · -- other keys' bindings unchanged
      intro r w hrq
      constructor
      · rintro ⟨m, hm, hfm, hhm, hkm, hvm⟩
        have hm' : m < n := hm
        have hfm' : (bsf' m).filled = true := hfm
        have hhm' : (bsf' m).hash = hash_key ks r := hhm
        have hkm' : key_equals ks r (bkey (bsf' m)) = true := hkm
        have hvm' : (bsf' m).value = w := hvm
        by_cases hmi : m = i
        · subst hmi
          exfalso
          rw [hupd_i] at hkm'
          have hbk : bkey b' = q := by simp [hbq_def, bkey]
          rw [hbk] at hkm'
          exact hrq (by rw [key_equals_symm]; exact hkm')
        · rw [hupd_ne m hmi] at hfm' hhm' hkm' hvm'
          exact ⟨m, hm', hfm', hhm', hkm', hvm'⟩
      · rintro ⟨m, hm, hfm, hhm, hkm, hvm⟩
        by_cases hmi : m = i
        · subst hmi
          exfalso
          have h1 : key_equals ks r (bkey b) = true := hkm
          have h2 : key_equals ks (bkey b) q = true := by
            rw [key_equals_symm]; exact hkey_i
          have h3 := key_equals_trans ks r (bkey b) q h1 h2
          exact hrq (by rw [key_equals_symm]; exact h3)
        · refine ⟨m, hm, ?_, ?_, ?_, ?_⟩
          · show (bsf' m).filled = true
            rwa [hupd_ne m hmi]
          · show (bsf' m).hash = hash_key ks r
            rwa [hupd_ne m hmi]
          · show key_equals ks r (bkey (bsf' m)) = true
            rwa [hupd_ne m hmi]
          · show (bsf' m).value = w
            rwa [hupd_ne m hmi]
    · intro _
      refine ⟨rfl, b.value, ⟨i, hi, hf, ?_, hkey_i, rfl⟩, rfl⟩
      show b.hash = hash_key ks q
      rw [hhash_i, hqh]
    · intro hna
      exact absurd hHas hna
  · -- insertion into an empty slot
    have hf' : (h.buckets i).filled = false := by simpa using hf
    have hNoKey : ¬HasKey h q := by
      rintro ⟨m, hm, hfm, hhm, hkm⟩
      obtain ⟨_, _, hdes_m, hchain_m, _⟩ := hInv m hm hfm
      have hdes_m' : (h.buckets m).desired_idx = start := by
        rw [hdes_m, hhm, ← hqh]
      rcases Nat.lt_trichotomy (cdist n start m) (cdist n start i) with hlt | heqd | hgt
      · exact hclean m hm hlt (Or.inr ⟨by rw [hhm, ← hqh], hkm⟩)
      · have : m = i := cdist_inj n start m i hstart hm hi heqd
        subst this
        rw [hfm] at hf'; cases hf'
      · have hchain : chainMem n (h.buckets m).desired_idx i m := by
          rw [hdes_m']; exact hgt
        have := hchain_m i hi hchain
        rw [this] at hf'; cases hf'
    set b' : Bucket :=
      { filled := true, desired_idx := qh % n, hash := qh,
        key := some q, value := v } with hbq_def
    set bsf' := Function.update h.buckets i b' with hbsfq_def
    set h' : Hashmap :=
      { h with buckets := bsf', size := h.size + 1 } with hhq_def
    have heq : hashmap_set_lower h q v qh = some (h', 0) := by
      unfold hashmap_set_lower
      rw [hgbi]
      simp only [hf', if_false, Bool.false_eq_true]
    have hupd_i : bsf' i = b' := Function.update_same i b' h.buckets
    have hupd_ne : ∀ j, j ≠ i → bsf' j = h.buckets j := by
      intro j hj
      exact Function.update_noteq hj b' h.buckets
    have hbf' : b'.filled = true := rfl
    have hcount' : countFilled bsf' n = countFilled h.buckets n + 1 := by
      have hcu := countFilled_update h.buckets n i b' hi
      rw [← hbsfq_def] at hcu
      rw [hf', hbf'] at hcu
      simp only [if_true, Bool.false_eq_true, if_false] at hcu
      omega
    have hInv' : InvAt ks bsf' n := by
      intro m hm hfm
      by_cases hmi : m = i
      · subst hmi
        rw [hupd_i] at hfm ⊢
        refine ⟨by simp [hbq_def], ?_, by simp [hbq_def], ?_, ?_⟩
        · have : bkey b' = q := by simp [hbq_def, bkey]
          rw [this]
          simp only [hbq_def]
          exact hqh
        · intro j hj hchain
          have hji : j ≠ m := by
            intro hk; subst hk
            unfold chainMem at hchain
            omega
          rw [hupd_ne j hji]
          have hchain2 : chainMem n start j m := by
            have hdd : b'.desired_idx = start := by simp [hbq_def]
            rwa [hdd] at hchain
          have hnostop := hclean j hj hchain2
          by_cases hfj : (h.buckets j).filled = true
          · exact hfj
          · exact absurd (Or.inl (by simpa using hfj)) hnostop
        · intro j hj hjm hfj
          have hfj' : (h.buckets j).filled = true := by rwa [hupd_ne j hjm] at hfj
          rw [hupd_ne j hjm]
          rintro ⟨hhj, hkj⟩
          have hbk : bkey b' = q := by simp [hbq_def, bkey]
          rw [hbk] at hkj
          have hhj' : (h.buckets j).hash = qh := by simpa [hbq_def] using hhj
          exact hNoKey ⟨j, hj, hfj', by rw [hhj', hqh], hkj⟩
      · rw [hupd_ne m hmi] at hfm ⊢
        obtain ⟨hk1, hk2, hk3, hk4, hk5⟩ := hInv m hm hfm
        refine ⟨hk1, hk2, hk3, ?_, ?_⟩
        · intro j hj hchain
          by_cases hji : j = i
          · subst hji
            rw [hupd_i]
          · rw [hupd_ne j hji]
            exact hk4 j hj hchain
        · intro j hj hjm hfj
          by_cases hji : j = i
          · subst hji
            rw [hupd_i]
            rintro ⟨hhj, hkj⟩
            have hbk : bkey b' = q := by simp [hbq_def, bkey]
            rw [hbk] at hkj
            have hhash_m : (h.buckets m).hash = hash_key ks q := by
              have : b'.hash = qh := by simp [hbq_def]
              rw [this] at hhj
              rw [← hhj, hqh]
            exact hNoKey ⟨m, hm, hfm, hhash_m, by rw [key_equals_symm]; exact hkj⟩
          · rw [hupd_ne j hji]
            exact hk5 j hj hjm (by rwa [hupd_ne j hji] at hfj)
    have hMaps : MapsTo h' q v := by
      refine ⟨i, hi, ?_, ?_, ?_, ?_⟩
      · show (bsf' i).filled = true
        rw [hupd_i]
      · show (bsf' i).hash = hash_key ks q
        rw [hupd_i]
        simp only [hbq_def]
        exact hqh
      · show key_equals ks q (bkey (bsf' i)) = true
        rw [hupd_i]
        have : bkey b' = q := by simp [hbq_def, bkey]
        rw [this]
        exact key_equals_refl ks q
      · show (bsf' i).value = v
        rw [hupd_i]
    refine ⟨h', 0, heq, rfl, rfl, rfl, rfl, hInv', by
      show h.size + 1 = countFilled bsf' n
      rw [hcount', ← hcount], hMaps, ?_, ?_, ?_⟩
    · intro r w hrq
      constructor
      · rintro ⟨m, hm, hfm, hhm, hkm, hvm⟩
        have hm' : m < n := hm
        have hfm' : (bsf' m).filled = true := hfm
        have hhm' : (bsf' m).hash = hash_key ks r := hhm
        have hkm' : key_equals ks r (bkey (bsf' m)) = true := hkm
        have hvm' : (bsf' m).value = w := hvm
        by_cases hmi : m = i
        · subst hmi
          exfalso
          rw [hupd_i] at hkm'
          have hbk : bkey b' = q := by simp [hbq_def, bkey]
          rw [hbk] at hkm'
          exact hrq (by rw [key_equals_symm]; exact hkm')
        · rw [hupd_ne m hmi] at hfm' hhm' hkm' hvm'
          exact ⟨m, hm', hfm', hhm', hkm', hvm'⟩
      · rintro ⟨m, hm, hfm, hhm, hkm, hvm⟩
        by_cases hmi : m = i
        · subst hmi
          rw [hfm] at hf'; cases hf'
        · refine ⟨m, hm, ?_, ?_, ?_, ?_⟩
          · show (bsf' m).filled = true
            rwa [hupd_ne m hmi]
          · show (bsf' m).hash = hash_key ks r
            rwa [hupd_ne m hmi]
          · show key_equals ks r (bkey (bsf' m)) = true
            rwa [hupd_ne m hmi]
          · show (bsf' m).value = w
            rwa [hupd_ne m hmi]
    · intro hHas
      exact absurd hHas hNoKey
    · intro _
      exact ⟨rfl, rfl⟩

/-! ### Correctness of `rehash` -/

theorem HasKey_exists_MapsTo (h : Hashmap) (r : List Nat) :
    HasKey h r ↔ ∃ w, MapsTo h r w := by
  constructor
  · rintro ⟨i, hi, hf, hh, hk⟩
    exact ⟨(h.buckets i).value, i, hi, hf, hh, hk, rfl⟩
  · rintro ⟨w, i, hi, hf, hh, hk, _⟩
    exact ⟨i, hi, hf, hh, hk⟩

theorem MapsTo_congr_key (h : Hashmap) (q r : List Nat)
    (hqr : key_equals h.key_size q r = true) (w : Nat) :
    MapsTo h r w ↔ MapsTo h q w := by
  have hhash : hash_key h.key_size q = hash_key h.key_size r := hash_key_congr _ q r hqr
  have hrq : key_equals h.key_size r q = true := by
    rw [key_equals_symm]; exact hqr
  constructor
  · rintro ⟨m, hm, hf, hh, hk, hv⟩
    exact ⟨m, hm, hf, by rw [hh, ← hhash], key_equals_trans _ q r _ hqr hk, hv⟩
  · rintro ⟨m, hm, hf, hh, hk, hv⟩
    exact ⟨m, hm, hf, by rw [hh, hhash], key_equals_trans _ r q _ hrq hk, hv⟩

theorem countFilled_const_empty (n : Nat) :
    countFilled (fun _ => emptyBucket) n = 0 := by
  unfold countFilled
  refine List.countP_eq_zero.mpr ?_
  intro j _
  simp [emptyBucket]

/-- Contract of the reinsertion loop of `rehash`, generalized over the
remaining list of old-array indices. -/
theorem rehashLoop_spec (old : Nat → Bucket) (oldn : Nat) (ks : Int)
    (hold_hash : ∀ x, x < oldn → (old x).filled = true →
      (old x).hash = hash_key ks (bkey (old x)))
    (hold_dist : ∀ x y, x < oldn → y < oldn → x ≠ y →
      (old x).filled = true → (old y).filled = true →
      ¬((old y).hash = (old x).hash ∧
        key_equals ks (bkey (old x)) (bkey (old y)) = true)) :
    ∀ l : List Nat, (∀ x ∈ l, x < oldn) → l.Nodup →
    ∀ hacc : Hashmap, hacc.key_size = ks → 0 < hacc.alloc_size →
      InvAt ks hacc.buckets hacc.alloc_size →
      hacc.size = countFilled hacc.buckets hacc.alloc_size →
      2 * (hacc.size + l.countP (fun x => (old x).filled)) ≤ hacc.alloc_size →
      (∀ x ∈ l, (old x).filled = true → ¬HasKey hacc (bkey (old x))) →
      ∃ h', rehashLoop old l hacc = some h' ∧
        h'.alloc_size = hacc.alloc_size ∧ h'.min_size = hacc.min_size ∧
        h'.key_size = ks ∧ h'.copy_keys = hacc.copy_keys ∧
        InvAt ks h'.buckets h'.alloc_size ∧
        h'.size = countFilled h'.buckets h'.alloc_size ∧
        h'.size = hacc.size + l.countP (fun x => (old x).filled) ∧
        (∀ r w, MapsTo h' r w ↔ (MapsTo hacc r w ∨
          ∃ x ∈ l, (old x).filled = true ∧ (old x).hash = hash_key ks r ∧
            key_equals ks r (bkey (old x)) = true ∧ (old x).value = w)) := by
  intro l
  induction l with
  | nil =>
    intro _ _ hacc hks hn hInv hcount _ _
    refine ⟨hacc, rfl, rfl, rfl, hks, rfl, hInv, hcount, by simp, ?_⟩
    intro r w
    simp
  | cons x rest ih =>
    intro hmem hnd hacc hks hn hInv hcount hload habsent
    have hx : x < oldn := hmem x (List.mem_cons_self x rest)
    have hndrest : rest.Nodup := (List.nodup_cons.mp hnd).2
    have hxrest : x ∉ rest := (List.nodup_cons.mp hnd).1
    by_cases hfx : (old x).filled = true
    · -- reinsert the record stored at old index x
      have hqh : (old x).hash = hash_key hacc.key_size (bkey (old x)) := by
        rw [hks]
        exact hold_hash x hx hfx
      have hcl : (x :: rest).countP (fun y => (old y).filled) =
          rest.countP (fun y => (old y).filled) + 1 := by
        rw [List.countP_cons]
        simp [hfx]
      have hroom : countFilled hacc.buckets hacc.alloc_size < hacc.alloc_size := by
        rw [hcl] at hload
        omega
      obtain ⟨h1, old1, heq1, ha1, hm1, hk1, hc1, hInv1, hcount1, hMaps1, hpres1,
        hhask1, hnok1⟩ :=
        hashmap_set_lower_spec hacc (bkey (old x)) (old x).value (old x).hash
          hn (by rw [hks]; exact hInv) hcount hroom hqh
      have habs_x : ¬HasKey hacc (bkey (old x)) :=
        habsent x (List.mem_cons_self x rest) hfx
      obtain ⟨hsz1, hov1⟩ := hnok1 habs_x
      -- apply the induction hypothesis to the remaining indices
      have hks1 : h1.key_size = ks := by rw [hk1, hks]
      have hn1 : 0 < h1.alloc_size := by rw [ha1]; exact hn
      have hInv1' : InvAt ks h1.buckets h1.alloc_size := by
        rw [← hks1]; exact hInv1
      have hload1 : 2 * (h1.size + rest.countP (fun y => (old y).filled)) ≤
          h1.alloc_size := by
        rw [hsz1, ha1]
        rw [hcl] at hload
        omega
      have habsent1 : ∀ y ∈ rest, (old y).filled = true → ¬HasKey h1 (bkey (old y)) := by
        intro y hy hfy hkey
        have hyn : y < oldn := hmem y (List.mem_cons_of_mem x hy)
        have hxy : x ≠ y := by
          intro hk; subst hk; exact hxrest hy
        obtain ⟨w, hw⟩ := (HasKey_exists_MapsTo h1 (bkey (old y))).mp hkey
        have hnqr : ¬(key_equals hacc.key_size (bkey (old x)) (bkey (old y)) = true) := by
          intro hqr
          refine hold_dist x y hx hyn hxy hfx hfy ⟨?_, by rwa [hks] at hqr⟩
          rw [hold_hash x hx hfx, hold_hash y hyn hfy]
          exact (hash_key_congr ks _ _ (by rwa [hks] at hqr)).symm
        have := (hpres1 (bkey (old y)) w hnqr).mp hw
        exact habsent y (List.mem_cons_of_mem x hy) hfy
          ((HasKey_exists_MapsTo hacc (bkey (old y))).mpr ⟨w, this⟩)
      obtain ⟨h2, heq2, ha2, hm2, hk2, hc2, hInv2, hcount2, hsz2, hMaps2⟩ :=
        ih (fun y hy => hmem y (List.mem_cons_of_mem x hy)) hndrest h1
          hks1 hn1 hInv1' hcount1 hload1 habsent1
      have hrun : rehashLoop old (x :: rest) hacc = rehashLoop old rest h1 := by
        simp only [rehashLoop, hfx, if_true, heq1]
      refine ⟨h2, ?_, by rw [ha2, ha1], by rw [hm2, hm1], hk2, by rw [hc2, hc1],
        hInv2, hcount2, by rw [hsz2, hsz1, hcl]; omega, ?_⟩
      · rw [hrun]
        exact heq2
      · -- characterize the bindings of the final table
        intro r w
        rw [hMaps2]
        constructor
        · rintro (h1m | ⟨y, hy, hfy, hhy, hky, hvy⟩)
          · -- a binding of the intermediate table
            by_cases hqr : key_equals hacc.key_size (bkey (old x)) r = true
            · -- the binding of the just-reinserted key
              have hmq : MapsTo h1 (bkey (old x)) w := by
                rw [← MapsTo_congr_key h1 (bkey (old x)) r (by rwa [hk1])]
                exact h1m
              have hwv : w = (old x).value :=
                MapsTo_unique_at h1 hInv1 (bkey (old x)) w (old x).value hmq hMaps1
              refine Or.inr ⟨x, List.mem_cons_self x rest, hfx, ?_, ?_, hwv.symm⟩
              · rw [hold_hash x hx hfx]
                refine hash_key_congr ks _ _ ?_
                rwa [hks] at hqr
              · rw [key_equals_symm]
                rwa [hks] at hqr
            · exact Or.inl ((hpres1 r w hqr).mp h1m)
          · exact Or.inr ⟨y, List.mem_cons_of_mem x hy, hfy, hhy, hky, hvy⟩
        · rintro (haccm | ⟨y, hy, hfy, hhy, hky, hvy⟩)
          · -- an old binding, necessarily of a key other than old x's
            have hqr : ¬(key_equals hacc.key_size (bkey (old x)) r = true) := by
              intro hqr
              refine habs_x ?_
              rw [HasKey_exists_MapsTo]
              refine ⟨w, ?_⟩
              rw [← MapsTo_congr_key hacc (bkey (old x)) r hqr]
              exact haccm
            exact Or.inl ((hpres1 r w hqr).mpr haccm)
          · rcases List.mem_cons.mp hy with rfl | hy'
            · -- the record reinserted in this step
              refine Or.inl ?_
              have : MapsTo h1 (bkey (old y)) (old y).value := hMaps1
              rw [MapsTo_congr_key h1 (bkey (old y)) r (by rw [hk1, hks]; rwa [key_equals_symm])]
              rw [← hvy]
              exact this
            · exact Or.inr ⟨y, hy', hfy, hhy, hky, hvy⟩
    · -- an empty old slot is skipped
      have hstep : rehashLoop old (x :: rest) hacc = rehashLoop old rest hacc := by
        simp only [rehashLoop, if_neg hfx]
      have hcl : (x :: rest).countP (fun y => (old y).filled) =
          rest.countP (fun y => (old y).filled) := by
        rw [List.countP_cons]
        simp [hfx]
      have hload' : 2 * (hacc.size + rest.countP (fun y => (old y).filled)) ≤
          hacc.alloc_size := by rw [hcl] at hload; exact hload
      obtain ⟨h2, heq2, ha2, hm2, hk2, hc2, hInv2, hcount2, hsz2, hMaps2⟩ :=
        ih (fun y hy => hmem y (List.mem_cons_of_mem x hy)) hndrest hacc
          hks hn hInv hcount hload'
          (fun y hy hfy => habsent y (List.mem_cons_of_mem x hy) hfy)
      refine ⟨h2, by rw [hstep]; exact heq2, ha2, hm2, hk2, hc2, hInv2, hcount2,
        by rw [hsz2, hcl], ?_⟩
      intro r w
      rw [hMaps2]
      constructor
      · rintro (hm | ⟨y, hy, hrest⟩)
        · exact Or.inl hm
        · exact Or.inr ⟨y, List.mem_cons_of_mem x hy, hrest⟩
      · rintro (hm | ⟨y, hy, hfy, hrest⟩)
        · exact Or.inl hm
        · rcases List.mem_cons.mp hy with rfl | hy'
          · rw [hfy] at hfx; exact absurd rfl hfx
          · exact Or.inr ⟨y, hy', hfy, hrest⟩

/-- Contract of `rehash` for a permissible new size: all bindings are
preserved, the invariant holds in the new array, and the logical size is
unchanged. -/
theorem rehash_spec (h : Hashmap) (new_size : Nat)
    (hInv : InvAt h.key_size h.buckets h.alloc_size)
    (hcount : h.size = countFilled h.buckets h.alloc_size)
    (hload : 2 * h.size ≤ new_size)
    (hnpos : 0 < new_size)
    (hge : ¬ new_size < h.min_size) :
    ∃ h', rehash h new_size = some h' ∧
      h'.alloc_size = new_size ∧ h'.min_size = h.min_size ∧
      h'.key_size = h.key_size ∧ h'.copy_keys = h.copy_keys ∧
      InvAt h'.key_size h'.buckets h'.alloc_size ∧
      h'.size = countFilled h'.buckets h'.alloc_size ∧
      h'.size = h.size ∧
      (∀ r w, MapsTo h' r w ↔ MapsTo h r w) := by
  set h0 : Hashmap :=
    { h with buckets := fun _ => emptyBucket, size := 0, alloc_size := new_size }
    with hh0_def
  have hks0 : h0.key_size = h.key_size := rfl
  have hInv0 : InvAt h.key_size h0.buckets h0.alloc_size := by
    intro i hi hfi
    exact absurd hfi (by simp [hh0_def, emptyBucket])
  have hcount0 : h0.size = countFilled h0.buckets h0.alloc_size := by
    show 0 = countFilled (fun _ => emptyBucket) new_size
    rw [countFilled_const_empty]
  have hcountrange : (List.range h.alloc_size).countP (fun x => (h.buckets x).filled) =
      countFilled h.buckets h.alloc_size := rfl
  have hload0 : 2 * (h0.size + (List.range h.alloc_size).countP
      (fun x => (h.buckets x).filled)) ≤ h0.alloc_size := by
    show 2 * (0 + _) ≤ new_size
    rw [Nat.zero_add, hcountrange, ← hcount]
    exact hload
  have habsent0 : ∀ x ∈ List.range h.alloc_size, (h.buckets x).filled = true →
      ¬HasKey h0 (bkey (h.buckets x)) := by
    rintro x _ _ ⟨i, hi, hfi, _⟩
    exact absurd hfi (by simp [hh0_def, emptyBucket])
  obtain ⟨h', heq, ha, hm, hk, hc, hInv', hcount', hsz, hMaps⟩ :=
    rehashLoop_spec h.buckets h.alloc_size h.key_size
      (fun x hx hf => ((hInv x hx hf).2.1))
      (fun x y hx hy hxy hfx hfy => ((hInv x hx hfx).2.2.2.2 y hy (Ne.symm hxy) hfy))
      (List.range h.alloc_size) (fun x hx => List.mem_range.mp hx)
      (List.nodup_range h.alloc_size) h0 hks0 hnpos
      (by rw [hks0]; exact hInv0) hcount0 hload0 habsent0
  refine ⟨h', ?_, by rw [ha], by rw [hm], by rw [hk], by rw [hc],
    by rw [hk]; exact hInv', hcount',
    by rw [hsz, hcountrange, ← hcount]; show 0 + h.size = h.size; rw [Nat.zero_add], ?_⟩
  · unfold rehash
    rw [if_neg hge]
    exact heq
  · intro r w
    rw [hMaps]
    constructor
    · rintro (h0m | ⟨x, hx, hfx, hhx, hkx, hvx⟩)
      · obtain ⟨i, hi, hfi, _⟩ := h0m
        exact absurd hfi (by simp [hh0_def, emptyBucket])
      · exact ⟨x, List.mem_range.mp hx, hfx, hhx, hkx, hvx⟩
    · rintro ⟨x, hx, hfx, hhx, hkx, hvx⟩
      exact Or.inr ⟨x, List.mem_range.mpr hx, hfx, hhx, hkx, hvx⟩

/-! ### Correctness of `hashmap_set` -/

/-- Full contract of `hashmap_set` on an invariant-satisfying table.
The key well-formedness hypothesis is only needed in copy-mode with
variable-length keys, where the C `copy_key` requires a terminator. -/
theorem hashmap_set_spec (h : Hashmap) (k : List Nat) (v : Nat) (hI : Inv h)
    (hwf : h.copy_keys = true → h.key_size < 0 → (0 : Nat) ∈ k) :
    ∃ h' old, hashmap_set h k v = some (h', old) ∧
      Inv h' ∧
      h'.min_size = h.min_size ∧ h'.key_size = h.key_size ∧
      h'.copy_keys = h.copy_keys ∧
      (h.alloc_size / 2 ≤ h.size → h'.alloc_size = 2 * h.alloc_size) ∧
      (h.size < h.alloc_size / 2 → h'.alloc_size = h.alloc_size) ∧
      MapsTo h' k v ∧
      hashmap_get h' k = some v ∧
      hashmap_may_get h' k = some (true, some v) ∧
      (∀ r w, ¬(key_equals h.key_size k r = true) → (MapsTo h' r w ↔ MapsTo h r w)) ∧
      (HasKey h k → h'.size = h.size ∧ ∃ w0, MapsTo h k w0 ∧ old = w0) ∧
      (¬HasKey h k → h'.size = h.size + 1 ∧ old = 0) := by
  obtain ⟨hmin, ⟨kp, hkpa, hkpow⟩, hcount, hload, hInvAt⟩ := hI
  have hminpos : 0 < h.min_size := by unfold MIN_HASHMAP_SIZE at hmin; omega
  have hallocmin : h.min_size ≤ h.alloc_size := by
    rw [hkpow]
    have : (1:Nat) ≤ 2 ^ kp := Nat.one_le_two_pow
    calc h.min_size = h.min_size * 1 := by omega
      _ ≤ h.min_size * 2 ^ kp := Nat.mul_le_mul_left _ this
  have hnpos : 0 < h.alloc_size := by omega
  -- Step 1: the growth branch
  by_cases hg : h.alloc_size / 2 ≤ h.size
  · -- table is at least half full: capacity doubles first
    obtain ⟨h1, heqr, ha1, hm1, hk1, hc1, hInvAt1, hcount1, hsz1, hMaps1⟩ :=
      rehash_spec h (h.alloc_size * 2) hInvAt hcount (by omega) (by omega)
        (by omega)
    have hrun : hashmap_set h k v =
        hashmap_set_lower h1 (if h.copy_keys then copy_key h.key_size k else k) v
          (hash_key h.key_size (if h.copy_keys then copy_key h.key_size k else k)) := by
      unfold hashmap_set
      rw [if_pos (by omega : h.alloc_size / 2 ≤ h.size)]
      simp only [heqr, hc1, hk1]
    set key1 := if h.copy_keys then copy_key h.key_size k else k with hkey1_def
    have hkeq : key_equals h.key_size k key1 = true := by
      rw [hkey1_def]
      split <;> rename_i hck
      · rcases Int.lt_or_le h.key_size 0 with hv | hv
        · exact (copy_key_spec h.key_size k (fun _ => hwf hck hv)).1
        · exact (copy_key_spec h.key_size k (fun hlt => absurd hlt (by omega))).1
      · exact key_equals_refl _ k
    have hhasheq : hash_key h.key_size key1 = hash_key h.key_size k :=
      (hash_key_congr _ k key1 hkeq).symm
    have hroom1 : countFilled h1.buckets h1.alloc_size < h1.alloc_size := by
      rw [← hcount1, hsz1, ha1]
      omega
    obtain ⟨h', old, heql, ha', hm', hk', hc', hInvAt', hcount', hMaps', hpres',
      hhask', hnok'⟩ :=
      hashmap_set_lower_spec h1 key1 v (hash_key h.key_size key1)
        (by rw [ha1]; omega) hInvAt1 hcount1 hroom1 (by rw [hk1])
    have hkeq1 : key_equals h1.key_size k key1 = true := by rw [hk1]; exact hkeq
    have hHasIff : HasKey h k ↔ HasKey h1 key1 := by
      rw [HasKey_exists_MapsTo, HasKey_exists_MapsTo]
      constructor
      · rintro ⟨w, hw⟩
        refine ⟨w, ?_⟩
        rw [MapsTo_congr_key h1 k key1 hkeq1]
        rw [hMaps1]
        exact hw
      · rintro ⟨w, hw⟩
        refine ⟨w, ?_⟩
        rw [← hMaps1]
        rw [← MapsTo_congr_key h1 k key1 hkeq1]
        exact hw
    have hMk : MapsTo h' k v := by
      rw [MapsTo_congr_key h' key1 k (by rw [hk', hk1, key_equals_symm]; exact hkeq)]
      exact hMaps'
    have hszcases : h'.size = h.size ∨ h'.size = h.size + 1 := by
      by_cases hhk : HasKey h k
      · obtain ⟨hs, _⟩ := hhask' (hHasIff.mp hhk)
        exact Or.inl (by rw [hs, hsz1])
      · obtain ⟨hs, _⟩ := hnok' (fun hc => hhk (hHasIff.mpr hc))
        exact Or.inr (by rw [hs, hsz1])
    have hInv' : Inv h' := by
      refine ⟨by rw [hm', hm1]; exact hmin, ⟨kp + 1, ?_, ?_⟩, hcount', ?_, hInvAt'⟩
      · rw [ha', ha1]
        omega
      · rw [ha', ha1, hm', hm1, hkpow]
        ring
      · rw [ha', ha1]
        rcases hszcases with hs | hs <;> rw [hs] <;> omega
    obtain ⟨hget, hmay, _⟩ := lookup_found h' hInv' k v hMk
    refine ⟨h', old, by rw [hrun]; exact heql, hInv',
      by rw [hm', hm1], by rw [hk', hk1], by rw [hc', hc1],
      fun _ => by rw [ha', ha1]; omega, fun hlt => absurd hg (by omega),
      hMk, hget, hmay, ?_, ?_, ?_⟩
    · intro r w hrk
      have hr1 : ¬(key_equals h1.key_size key1 r = true) := by
        intro hc
        refine hrk ?_
        refine key_equals_trans _ k key1 r hkeq ?_
        rwa [hk1] at hc
      rw [hpres' r w hr1, hMaps1]
    · intro hhk
      obtain ⟨hs, w0, hw0, hov⟩ := hhask' (hHasIff.mp hhk)
      refine ⟨by rw [hs, hsz1], w0, ?_, hov⟩
      rw [← hMaps1, ← MapsTo_congr_key h1 k key1 hkeq1]
      exact hw0
    · intro hhk
      obtain ⟨hs, hov⟩ := hnok' (fun hc => hhk (hHasIff.mpr hc))
      exact ⟨by rw [hs, hsz1], hov⟩
  · -- below the growth threshold: no rehash
    have hlt : h.size < h.alloc_size / 2 := by omega
    have hrun : hashmap_set h k v =
        hashmap_set_lower h (if h.copy_keys then copy_key h.key_size k else k) v
          (hash_key h.key_size (if h.copy_keys then copy_key h.key_size k else k)) := by
      unfold hashmap_set
      rw [if_neg (by omega : ¬ h.alloc_size / 2 ≤ h.size)]
    set key1 := if h.copy_keys then copy_key h.key_size k else k with hkey1_def
    have hkeq : key_equals h.key_size k key1 = true := by
      rw [hkey1_def]
      split <;> rename_i hck
      · rcases Int.lt_or_le h.key_size 0 with hv | hv
        · exact (copy_key_spec h.key_size k (fun _ => hwf hck hv)).1
        · exact (copy_key_spec h.key_size k (fun hl => absurd hl (by omega))).1
      · exact key_equals_refl _ k
    have hhasheq : hash_key h.key_size key1 = hash_key h.key_size k :=
      (hash_key_congr _ k key1 hkeq).symm
    have hroom : countFilled h.buckets h.alloc_size < h.alloc_size := by
      rw [← hcount]
      omega
    obtain ⟨h', old, heql, ha', hm', hk', hc', hInvAt', hcount', hMaps', hpres',
      hhask', hnok'⟩ :=
      hashmap_set_lower_spec h key1 v (hash_key h.key_size key1)
        hnpos hInvAt hcount hroom rfl
    have hHasIff : HasKey h k ↔ HasKey h key1 := by
      rw [HasKey_exists_MapsTo, HasKey_exists_MapsTo]
      constructor
      · rintro ⟨w, hw⟩
        exact ⟨w, (MapsTo_congr_key h k key1 hkeq w).mpr hw⟩
      · rintro ⟨w, hw⟩
        exact ⟨w, (MapsTo_congr_key h k key1 hkeq w).mp hw⟩
    have hMk : MapsTo h' k v := by
      rw [MapsTo_congr_key h' key1 k (by rw [hk', key_equals_symm]; exact hkeq)]
      exact hMaps'
    have hszcases : h'.size = h.size ∨ h'.size = h.size + 1 := by
      by_cases hhk : HasKey h k
      · exact Or.inl (hhask' (hHasIff.mp hhk)).1
      · exact Or.inr (hnok' (fun hc => hhk (hHasIff.mpr hc))).1
    have hInv' : Inv h' := by
      refine ⟨by rw [hm']; exact hmin, ⟨kp, ?_, ?_⟩, hcount', ?_, hInvAt'⟩
      · rw [ha']; exact hkpa
      · rw [ha', hm']; exact hkpow
      · rw [ha']
        rcases hszcases with hs | hs <;> rw [hs] <;> omega
    obtain ⟨hget, hmay, _⟩ := lookup_found h' hInv' k v hMk
    refine ⟨h', old, by rw [hrun]; exact heql, hInv',
      hm', hk', hc', fun hge => absurd hge (by omega), fun _ => ha',
      hMk, hget, hmay, ?_, ?_, ?_⟩
    · intro r w hrk
      have hr1 : ¬(key_equals h.key_size key1 r = true) := by
        intro hc
        exact hrk (key_equals_trans _ k key1 r hkeq hc)
      exact hpres' r w hr1
    · intro hhk
      obtain ⟨hs, w0, hw0, hov⟩ := hhask' (hHasIff.mp hhk)
      refine ⟨hs, w0, ?_, hov⟩
      rw [← MapsTo_congr_key h k key1 hkeq]
      exact hw0
    · intro hhk
      exact hnok' (fun hc => hhk (hHasIff.mpr hc))

/-! ### Correctness of `hashmap_remove`: the backward-shift loop -/

theorem addc_inj (n i0 a b : Nat) (h0 : i0 < n) (ha : a < n) (hb : b < n)
    (h : addc n i0 a = addc n i0 b) : a = b := by
  have h1 := cdist_addc n i0 a h0 ha
  rw [h, cdist_addc n i0 b h0 hb] at h1
  omega

theorem cdist_pos (n a b : Nat) (ha : a < n) (hb : b < n) (hab : a ≠ b) :
    0 < cdist n a b := by
  rcases Nat.eq_zero_or_pos (cdist n a b) with h | h
  · exact absurd (cdist_eq_zero n a b ha hb h) hab
  · exact h

/-- Transitivity of probe-path membership: if `x` lies on the path from
`d` to `i` and `j` on the path from `x` to `i`, then `j` lies on the
path from `d` to `i`. -/
theorem chainMem_trans (n d x j i : Nat) (hd : d < n) (hx : x < n) (hj : j < n)
    (hi : i < n) (h1 : chainMem n d x i) (h2 : chainMem n x j i) :
    chainMem n d j i := by
  have e1 : cdist n x j = cdist n (cdist n d x) (cdist n d j) := by
    conv_lhs => rw [← addc_cdist n d x hd hx, ← addc_cdist n d j hd hj]
    exact cdist_addc_addc n d _ _ hd (cdist_lt n d x hd hx) (cdist_lt n d j hd hj)
  have e2 : cdist n x i = cdist n (cdist n d x) (cdist n d i) := by
    conv_lhs => rw [← addc_cdist n d x hd hx, ← addc_cdist n d i hd hi]
    exact cdist_addc_addc n d _ _ hd (cdist_lt n d x hd hx) (cdist_lt n d i hd hi)
  have hsx := cdist_lt n d x hd hx
  have hsj := cdist_lt n d j hd hj
  have hsi := cdist_lt n d i hd hi
  unfold chainMem at h1 h2 ⊢
  rw [e1, e2] at h2
  set A := cdist n d x with hA
  set B := cdist n d j with hB
  set C := cdist n d i with hC
  unfold cdist at h2
  split_ifs at h2 <;> omega

/-- The shift decision of the compaction loop moves the visited slot
down exactly when the current hole lies on the visited occupant's probe
path. -/
theorem filterCond_iff (n last p d : Nat) (hl : last < n) (hp : p < n) (hd : d < n)
    (hlp : last ≠ p) : filterCond last p d = true ↔ chainMem n d last p := by
  unfold filterCond chainMem cdist
  split_ifs <;>
    (try simp only [Bool.and_eq_true, Bool.or_eq_true, decide_eq_true_eq,
      Bool.false_eq_true, false_iff]) <;> omega

/-- Static context of one `hashmap_remove` compaction run: the original
bucket array together with the removed slot `i0` and the offset `tE` of
the first empty slot after it. -/
structure RemCtx (ks : Int) (bs0 : Nat → Bucket) (n i0 tE : Nat) : Prop where
  hInv : InvAt ks bs0 n
  hn : 0 < n
  hi0 : i0 < n
  hf0 : (bs0 i0).filled = true
  htE1 : 1 ≤ tE
  htEn : tE < n
  hrun : ∀ s, 1 ≤ s → s < tE → (bs0 (addc n i0 s)).filled = true
  hempty : (bs0 (addc n i0 tE)).filled = false

/-- Invariant of the backward-shift loop after having processed offsets
`1 … t` with the current hole at offset `ℓ`.  The slot at the hole still
carries a junk duplicate record (the C code never clears it until the
loop ends), so every semantic statement excludes the hole. -/
structure RemInv (ks : Int) (bs0 bs : Nat → Bucket) (n i0 tE ℓ t : Nat) : Prop where
  hle : ℓ ≤ t
  hlt : t < tE
  status : ∀ j, j < n → (bs j).filled = (bs0 j).filled
  frontier : ∀ j, j < n → t < cdist n i0 j → bs j = bs0 j
  record : ∀ j, j < n → j ≠ addc n i0 ℓ → (bs j).filled = true →
    ∃ m, m < n ∧ (bs0 m).filled = true ∧ bs j = bs0 m
  chains : ∀ m, m < n → m ≠ addc n i0 ℓ → (bs m).filled = true →
    ∀ j, j < n → chainMem n (bs m).desired_idx j m → j ≠ addc n i0 ℓ →
      (bs j).filled = true
  broken : ∀ m, m < n → m ≠ addc n i0 ℓ → (bs m).filled = true →
    chainMem n (bs m).desired_idx (addc n i0 ℓ) m →
      t < cdist n i0 m ∧ cdist n i0 m < tE
  distinct : ∀ m m', m < n → m' < n → m ≠ addc n i0 ℓ → m' ≠ addc n i0 ℓ →
    m ≠ m' → (bs m).filled = true → (bs m').filled = true →
    ¬((bs m').hash = (bs m).hash ∧ key_equals ks (bkey (bs m)) (bkey (bs m')) = true)
  survive : ∀ m, m < n → (bs0 m).filled = true → m ≠ i0 →
    ∃ j, j < n ∧ j ≠ addc n i0 ℓ ∧ bs j = bs0 m

/-- The loop invariant holds on entry (hole = removed slot `i0`,
nothing processed yet). -/
theorem RemInv_init (ks : Int) (bs0 : Nat → Bucket) (n i0 tE : Nat)
    (ctx : RemCtx ks bs0 n i0 tE) : RemInv ks bs0 bs0 n i0 tE 0 0 := by
  have hz : addc n i0 0 = i0 := addc_zero n i0 ctx.hi0
  refine ⟨Nat.le_refl 0, ctx.htE1, fun j _ => rfl, fun j _ _ => rfl, ?_, ?_, ?_, ?_, ?_⟩
  · intro j hj _ hfj
    exact ⟨j, hj, hfj, rfl⟩
  · intro m hm _ hfm j hj hchain _
    exact (ctx.hInv m hm hfm).2.2.2.1 j hj hchain
  · intro m hm hmi0 hfm hchain
    rw [hz] at hmi0 hchain
    constructor
    · exact cdist_pos n i0 m ctx.hi0 hm (fun h => hmi0 h.symm)
    · by_contra hc
      push_neg at hc
      have hme : m ≠ addc n i0 tE := by
        intro hk
        rw [hk, ctx.hempty] at hfm
        cases hfm
      have hgt : tE < cdist n i0 m := by
        rcases Nat.lt_or_ge tE (cdist n i0 m) with hk | hk
        · exact hk
        · exfalso
          have : tE = cdist n i0 m := by omega
          refine hme ?_
          rw [← addc_cdist n i0 m ctx.hi0 hm, ← this]
      have hdm : (bs0 m).desired_idx < n := by
        obtain ⟨_, _, hdes, _, _⟩ := ctx.hInv m hm hfm
        rw [hdes]
        exact Nat.mod_lt _ ctx.hn
      have hchain_e : chainMem n (bs0 m).desired_idx (addc n i0 tE) m := by
        refine chainMem_trans n (bs0 m).desired_idx i0 (addc n i0 tE) m hdm ctx.hi0
          (addc_lt n i0 tE ctx.hn) hm hchain ?_
        unfold chainMem
        rw [cdist_addc n i0 tE ctx.hi0 ctx.htEn]
        exact hgt
      have := (ctx.hInv m hm hfm).2.2.2.1 (addc n i0 tE) (addc_lt n i0 tE ctx.hn) hchain_e
      rw [ctx.hempty] at this
      cases this
  · intro m m' hm hm' hmh hm'h hmm' hfm hfm'
    rw [hz] at hmh hm'h
    exact (ctx.hInv m hm hfm).2.2.2.2 m' hm' (Ne.symm hmm') hfm'
  · intro m hm hfm hmi0
    rw [hz]
    exact ⟨m, hm, hmi0, rfl⟩

/-- Processing one more slot that is left in place (shift condition
false) preserves the loop invariant with the same hole. -/
theorem RemInv_step_nofilter (ks : Int) (bs0 bs : Nat → Bucket) (n i0 tE ℓ t : Nat)
    (ctx : RemCtx ks bs0 n i0 tE) (inv : RemInv ks bs0 bs n i0 tE ℓ t)
    (ht : t + 1 < tE)
    (hnf : filterCond (addc n i0 ℓ) (addc n i0 (t + 1))
      ((bs (addc n i0 (t + 1))).desired_idx) = false) :
    RemInv ks bs0 bs n i0 tE ℓ (t + 1) := by
  have hℓn : ℓ < n := by
    have h1 := inv.hle; have h2 := inv.hlt; have h3 := ctx.htEn; omega
  have ht1n : t + 1 < n := by
    have h3 := ctx.htEn; omega
  have hpn : (addc n i0 (t + 1)) < n := addc_lt n i0 (t + 1) ctx.hn
  have hholen : (addc n i0 ℓ) < n := addc_lt n i0 ℓ ctx.hn
  have hhp : addc n i0 ℓ ≠ addc n i0 (t + 1) := by
    intro hk
    have h4 := addc_inj n i0 ℓ (t + 1) ctx.hi0 hℓn ht1n hk
    have h5 := inv.hle
    omega
  have hcp : cdist n i0 (addc n i0 (t + 1)) = t + 1 :=
    cdist_addc n i0 (t + 1) ctx.hi0 ht1n
  have hbsp : bs (addc n i0 (t + 1)) = bs0 (addc n i0 (t + 1)) := by
    refine inv.frontier _ hpn ?_
    rw [hcp]
    omega
  have hfp : (bs (addc n i0 (t + 1))).filled = true := by
    rw [hbsp]
    exact ctx.hrun (t + 1) (by omega) ht
  have hdpn : (bs (addc n i0 (t + 1))).desired_idx < n := by
    rw [hbsp]
    obtain ⟨_, _, hdes, _, _⟩ := ctx.hInv _ hpn (by rwa [hbsp] at hfp)
    rw [hdes]
    exact Nat.mod_lt _ ctx.hn
  refine ⟨by have := inv.hle; omega, ht, inv.status, ?_, inv.record, inv.chains, ?_,
    inv.distinct, inv.survive⟩
  · intro j hj hcd
    exact inv.frontier j hj (by omega)
  · intro m hm hmh hfm hchain
    obtain ⟨h1, h2⟩ := inv.broken m hm hmh hfm hchain
    refine ⟨?_, h2⟩
    have hmp : m ≠ addc n i0 (t + 1) := by
      intro hk
      subst hk
      have hcontra := (filterCond_iff n (addc n i0 ℓ) (addc n i0 (t + 1))
        ((bs (addc n i0 (t + 1))).desired_idx) hholen hpn hdpn hhp).mpr hchain
      rw [hnf] at hcontra
      cases hcontra
    have : cdist n i0 m ≠ t + 1 := by
      intro hk
      refine hmp ?_
      rw [← addc_cdist n i0 m ctx.hi0 hm, hk]
    omega

/-- Processing one more slot that is shifted down into the hole
(shift condition true) re-establishes the loop invariant with the hole
at the just-vacated position. -/
theorem RemInv_step_filter (ks : Int) (bs0 bs : Nat → Bucket) (n i0 tE ℓ t : Nat)
    (ctx : RemCtx ks bs0 n i0 tE) (inv : RemInv ks bs0 bs n i0 tE ℓ t)
    (ht : t + 1 < tE)
    (hfl : filterCond (addc n i0 ℓ) (addc n i0 (t + 1))
      ((bs (addc n i0 (t + 1))).desired_idx) = true) :
    RemInv ks bs0 (Function.update bs (addc n i0 ℓ) (bs (addc n i0 (t + 1))))
      n i0 tE (t + 1) (t + 1) := by
  have hℓn : ℓ < n := by
    have h1 := inv.hle; have h2 := inv.hlt; have h3 := ctx.htEn; omega
  have ht1n : t + 1 < n := by
    have h3 := ctx.htEn; omega
  set hole := addc n i0 ℓ with hhole_def
  set p := addc n i0 (t + 1) with hp_def
  set e := addc n i0 tE with he_def
  have hpn : p < n := addc_lt n i0 (t + 1) ctx.hn
  have hholen : hole < n := addc_lt n i0 ℓ ctx.hn
  have hen : e < n := addc_lt n i0 tE ctx.hn
  have hhp : hole ≠ p := by
    intro hk
    have h4 := addc_inj n i0 ℓ (t + 1) ctx.hi0 hℓn ht1n hk
    have h5 := inv.hle
    omega
  have hcdhole : cdist n i0 hole = ℓ := cdist_addc n i0 ℓ ctx.hi0 hℓn
  have hcdp : cdist n i0 p = t + 1 := cdist_addc n i0 (t + 1) ctx.hi0 ht1n
  have hcde : cdist n i0 e = tE := cdist_addc n i0 tE ctx.hi0 ctx.htEn
  have hbsp : bs p = bs0 p := by
    refine inv.frontier _ hpn ?_
    rw [hcdp]
    omega
  have hfp : (bs p).filled = true := by
    rw [hbsp]
    exact ctx.hrun (t + 1) (by omega) ht
  have hfse : (bs e).filled = false := by
    rw [inv.status e hen]
    exact ctx.hempty
  have hfhole : (bs hole).filled = true := by
    rw [inv.status hole hholen]
    rcases Nat.eq_zero_or_pos ℓ with hz | hpos
    · subst hz
      rw [hhole_def, addc_zero n i0 ctx.hi0]
      exact ctx.hf0
    · exact ctx.hrun ℓ hpos (by have := inv.hle; omega)
  have hdpn : (bs p).desired_idx < n := by
    rw [hbsp]
    obtain ⟨_, _, hdes, _, _⟩ := ctx.hInv _ hpn (by rwa [hbsp] at hfp)
    rw [hdes]
    exact Nat.mod_lt _ ctx.hn
  have hmem : chainMem n (bs p).desired_idx hole p :=
    (filterCond_iff n hole p (bs p).desired_idx hholen hpn hdpn hhp).mp hfl
  set bs₂ := Function.update bs hole (bs p) with hbs₂_def
  have hupd_hole : bs₂ hole = bs p := Function.update_same hole (bs p) bs
  have hupd_ne : ∀ j, j ≠ hole → bs₂ j = bs j := by
    intro j hj
    exact Function.update_noteq hj (bs p) bs
  -- a position with offset > t is not the hole
  have hnothole : ∀ j, j < n → t < cdist n i0 j → j ≠ hole := by
    intro j hj hcd hk
    subst hk
    rw [hcdhole] at hcd
    have := inv.hle
    omega
  have hfp0 : (bs0 p).filled = true := by rwa [hbsp] at hfp
  refine ⟨Nat.le_refl _, ht, ?_, ?_, ?_, ?_, ?_, ?_, ?_⟩
  · -- filled statuses unchanged
    intro j hj
    by_cases hjh : j = hole
    · subst hjh
      rw [hupd_hole, hfp]
      rw [inv.status hole hholen] at hfhole
      exact hfhole.symm ▸ rfl
    · rw [hupd_ne j hjh]
      exact inv.status j hj
  · -- slots beyond the new frontier untouched
    intro j hj hcd
    have hjh : j ≠ hole := hnothole j hj (by omega)
    rw [hupd_ne j hjh]
    exact inv.frontier j hj (by omega)
  · -- every filled slot outside the new hole holds an original record
    intro j hj hjp hfj
    by_cases hjh : j = hole
    · subst hjh
      rw [hupd_hole, hbsp]
      exact ⟨p, hpn, hfp0, rfl⟩
    · rw [hupd_ne j hjh] at hfj ⊢
      exact inv.record j hj hjh hfj
  · -- chains filled except possibly at the new hole
    intro m hm hmp hfm j hj hchain hjp
    rw [← hp_def] at hmp hjp
    by_cases hjh : j = hole
    · subst hjh
      rw [hupd_hole]
      exact hfp
    · rw [hupd_ne j hjh]
      by_cases hmh : m = hole
      · -- the moved record: its truncated chain avoids the old hole
        subst hmh
        rw [hupd_hole] at hfm hchain
        have hjchain : chainMem n (bs p).desired_idx j p := by
          unfold chainMem at hmem hchain ⊢
          omega
        have hjhole : j ≠ hole := hjh
        exact inv.chains p hpn (Ne.symm hhp) hfp j hj hjchain hjhole
      · rw [hupd_ne m hmh] at hfm hchain
        exact inv.chains m hm hmh hfm j hj hchain hjh
  · -- a chain through the new hole only beyond the new frontier
    intro m hm hmp hfm hchain
    rw [← hp_def] at hmp hchain
    by_cases hmh : m = hole
    · -- impossible for the moved record itself
      subst hmh
      rw [hupd_hole] at hfm hchain
      exfalso
      unfold chainMem at hmem hchain
      omega
    · rw [hupd_ne m hmh] at hfm hchain
      -- the old slot m, not moved, with the new hole p on its chain
      have hu := cdist_lt n i0 m ctx.hi0 hm
      have hme : m ≠ e := by
        intro hk
        rw [hk, hfse] at hfm
        cases hfm
      have hmeq : m = addc n i0 (cdist n i0 m) := (addc_cdist n i0 m ctx.hi0 hm).symm
      have hcdne : cdist n i0 m ≠ tE := by
        intro hk
        refine hme ?_
        rw [hmeq, hk]
      have hcdnp : cdist n i0 m ≠ t + 1 := by
        intro hk
        refine hmp ?_
        rw [hmeq, hk]
      have hdmn : (bs m).desired_idx < n := by
        obtain ⟨mo, hmo, hfmo, hrec⟩ := inv.record m hm hmh hfm
        obtain ⟨_, _, hdes, _, _⟩ := ctx.hInv mo hmo hfmo
        rw [hrec, hdes]
        exact Nat.mod_lt _ ctx.hn
      -- if the offset of m were outside (t+1, tE), the empty slot e
      -- would lie on m's chain
      have hnotbad : ¬(cdist n i0 m < t + 1 ∨ tE < cdist n i0 m) := by
        rintro hbad
        have htEn' := ctx.htEn
        have hn' := ctx.hn
        have hpe : chainMem n p e m := by
          unfold chainMem
          have h1 : cdist n p e = cdist n (t + 1) tE := by
            rw [hp_def, he_def]
            exact cdist_addc_addc n i0 (t + 1) tE ctx.hi0 ht1n ctx.htEn
          have h2 : cdist n p m = cdist n (t + 1) (cdist n i0 m) := by
            conv_lhs => rw [hmeq]
            rw [hp_def]
            exact cdist_addc_addc n i0 (t + 1) (cdist n i0 m) ctx.hi0 ht1n hu
          rw [h1, h2]
          set u := cdist n i0 m with hu_def
          unfold cdist
          split_ifs <;> omega
        have hechain : chainMem n (bs m).desired_idx e m :=
          chainMem_trans n (bs m).desired_idx p e m hdmn hpn hen hm hchain hpe
        have hehole : e ≠ hole := by
          intro hk
          have h4 := hcde
          rw [hk, hcdhole] at h4
          have h5 := inv.hle
          omega
        have := inv.chains m hm hmh hfm e hen hechain hehole
        rw [this] at hfse
        cases hfse
    -- conclude the offset bounds
      push_neg at hnotbad
      omega
  · -- pairwise distinct keys outside the new hole
    intro m m' hm hm' hmp hm'p hmm' hfm hfm'
    rw [← hp_def] at hmp hm'p
    by_cases hmh : m = hole
    · subst hmh
      rw [hupd_hole] at hfm ⊢
      by_cases hm'h : m' = hole
      · exact absurd hm'h.symm hmm'
      · rw [hupd_ne m' hm'h] at hfm' ⊢
        exact inv.distinct p m' hpn hm' (Ne.symm hhp) hm'h
          (fun hk => hm'p hk.symm) hfp hfm'
    · rw [hupd_ne m hmh] at hfm ⊢
      by_cases hm'h : m' = hole
      · subst hm'h
        rw [hupd_hole] at hfm' ⊢
        exact inv.distinct m p hm hpn hmh (Ne.symm hhp) hmp hfm hfp
      · rw [hupd_ne m' hm'h] at hfm' ⊢
        exact inv.distinct m m' hm hm' hmh hm'h hmm' hfm hfm'
  · -- all surviving original records still present outside the new hole
    intro m hm hfm hmi0
    rw [← hp_def]
    obtain ⟨j, hj, hjh, hrec⟩ := inv.survive m hm hfm hmi0
    by_cases hjp : j = p
    · refine ⟨hole, hholen, hhp, ?_⟩
      rw [hupd_hole, ← hjp, hrec]
    · refine ⟨j, hj, hjp, ?_⟩
      rw [hupd_ne j hjh, hrec]

/-- Running the compaction loop from a state satisfying the invariant
terminates at the first empty slot and returns a state satisfying the
invariant at the last processed offset. -/
theorem removeAux_run (ks : Int) (bs0 : Nat → Bucket) (n i0 tE : Nat)
    (ctx : RemCtx ks bs0 n i0 tE) :
    ∀ fuel t ℓ bs, RemInv ks bs0 bs n i0 tE ℓ t → tE - t ≤ fuel →
      ∃ bsF ℓF, removeAux bs n (addc n i0 ℓ) (addc n i0 t) fuel =
          some (bsF, addc n i0 ℓF) ∧
        RemInv ks bs0 bsF n i0 tE ℓF (tE - 1) ∧ ℓF < tE := by
  intro fuel
  induction fuel with
  | zero =>
    intro t ℓ bs inv hfuel
    have := inv.hlt
    omega
  | succ fuel ih =>
    intro t ℓ bs inv hfuel
    have htn : t < n := by have h1 := inv.hlt; have h2 := ctx.htEn; omega
    have ht1n : t + 1 ≤ n := by have h2 := ctx.htEn; have h1 := inv.hlt; omega
    have hidx : (addc n i0 t + 1) % n = addc n i0 (t + 1) := addc_succ n i0 t
    by_cases hend : t + 1 = tE
    · -- the next slot is the empty slot: the loop stops here
      have hfe : (bs (addc n i0 (t + 1))).filled = false := by
        rw [inv.status _ (addc_lt n i0 (t + 1) ctx.hn), hend]
        exact ctx.hempty
      refine ⟨bs, ℓ, ?_, ?_, by have h1 := inv.hle; have h2 := inv.hlt; omega⟩
      · simp only [removeAux, hidx, hfe]
        simp
      · have : t = tE - 1 := by omega
        rw [← this]
        exact inv
    · have ht1 : t + 1 < tE := by have := inv.hlt; omega
      have hfe : (bs (addc n i0 (t + 1))).filled = true := by
        rw [inv.status _ (addc_lt n i0 (t + 1) ctx.hn)]
        exact ctx.hrun (t + 1) (by omega) ht1
      by_cases hfc : filterCond (addc n i0 ℓ) (addc n i0 (t + 1))
          ((bs (addc n i0 (t + 1))).desired_idx) = true
      · -- shift the slot down into the hole and continue
        have hstep : removeAux bs n (addc n i0 ℓ) (addc n i0 t) (fuel + 1) =
            removeAux (Function.update bs (addc n i0 ℓ) (bs (addc n i0 (t + 1))))
              n (addc n i0 (t + 1)) (addc n i0 (t + 1)) fuel := by
          simp only [removeAux, hidx, hfe, hfc]
          simp
        obtain ⟨bsF, ℓF, heq, hinvF, hℓF⟩ :=
          ih (t + 1) (t + 1) _
            (RemInv_step_filter ks bs0 bs n i0 tE ℓ t ctx inv ht1 hfc) (by omega)
        exact ⟨bsF, ℓF, by rw [hstep]; exact heq, hinvF, hℓF⟩
      · -- leave the slot in place and continue
        have hfc' : filterCond (addc n i0 ℓ) (addc n i0 (t + 1))
            ((bs (addc n i0 (t + 1))).desired_idx) = false := by
          rcases Bool.eq_false_or_eq_true (filterCond (addc n i0 ℓ) (addc n i0 (t + 1))
            ((bs (addc n i0 (t + 1))).desired_idx)) with h | h
          · exact absurd h hfc
          · exact h
        have hstep : removeAux bs n (addc n i0 ℓ) (addc n i0 t) (fuel + 1) =
            removeAux bs n (addc n i0 ℓ) (addc n i0 (t + 1)) fuel := by
          simp only [removeAux, hidx, hfe, hfc']
          simp
        obtain ⟨bsF, ℓF, heq, hinvF, hℓF⟩ :=
          ih (t + 1) ℓ bs
            (RemInv_step_nofilter ks bs0 bs n i0 tE ℓ t ctx inv ht1 hfc') (by omega)
        exact ⟨bsF, ℓF, by rw [hstep]; exact heq, hinvF, hℓF⟩

/-- Clearing the final hole after the compaction loop yields a bucket
array that satisfies the full invariant, has exactly one record fewer,
and still holds every original record except the removed one. -/
theorem removeFinal_spec (ks : Int) (bs0 bsF : Nat → Bucket) (n i0 tE ℓF : Nat)
    (ctx : RemCtx ks bs0 n i0 tE)
    (inv : RemInv ks bs0 bsF n i0 tE ℓF (tE - 1)) (hℓF : ℓF < tE) :
    let holeF := addc n i0 ℓF
    let bs'' := Function.update bsF holeF
      { bsF holeF with filled := false }
    InvAt ks bs'' n ∧
      countFilled bs'' n + 1 = countFilled bs0 n ∧
      (∀ m, m < n → (bs0 m).filled = true → m ≠ i0 →
        ∃ j, j < n ∧ (bs'' j).filled = true ∧ bs'' j = bs0 m) := by
  intro holeF bs''
  have hℓFn : ℓF < n := by have := ctx.htEn; omega
  have hholen : holeF < n := addc_lt n i0 ℓF ctx.hn
  have hfhole : (bsF holeF).filled = true := by
    rw [inv.status holeF hholen]
    rcases Nat.eq_zero_or_pos ℓF with hz | hpos
    · subst hz
      show (bs0 (addc n i0 0)).filled = true
      rw [addc_zero n i0 ctx.hi0]
      exact ctx.hf0
    · exact ctx.hrun ℓF hpos hℓF
  have hupd_hole : bs'' holeF = { bsF holeF with filled := false } :=
    Function.update_same holeF _ bsF
  have hupd_ne : ∀ j, j ≠ holeF → bs'' j = bsF j := by
    intro j hj
    exact Function.update_noteq hj _ bsF
  have hstat : ∀ j, j < n → j ≠ holeF → (bs'' j).filled = (bsF j).filled := by
    intro j _ hj
    rw [hupd_ne j hj]
  have hnotholeF : ∀ m, m < n → (bs'' m).filled = true → m ≠ holeF := by
    intro m _ hfm hk
    rw [hk, hupd_hole] at hfm
    cases hfm
  refine ⟨?_, ?_, ?_⟩
  · -- the full invariant holds after clearing the hole
    intro m hm hfm
    have hmh : m ≠ holeF := hnotholeF m hm hfm
    have hfm' : (bsF m).filled = true := by rwa [hupd_ne m hmh] at hfm
    obtain ⟨mo, hmo, hfmo, hrec⟩ := inv.record m hm hmh hfm'
    obtain ⟨hk1, hk2, hk3, _, _⟩ := ctx.hInv mo hmo hfmo
    have hbm : bs'' m = bs0 mo := by rw [hupd_ne m hmh, hrec]
    refine ⟨by rw [hbm]; exact hk1, by rw [hbm]; exact hk2, by rw [hbm]; exact hk3,
      ?_, ?_⟩
    · -- unbroken probe chain
      intro j hj hchain
      rw [hbm] at hchain
      by_cases hjh : j = holeF
      · exfalso
        subst hjh
        have hbroken := inv.broken m hm hmh hfm'
        have : chainMem n (bsF m).desired_idx holeF m := by
          rw [hupd_ne m hmh] at hbm
          rw [hbm]
          exact hchain
        obtain ⟨hb1, hb2⟩ := hbroken this
        omega
      · rw [hupd_ne j hjh]
        refine inv.chains m hm hmh hfm' j hj ?_ hjh
        rw [hupd_ne m hmh] at hbm
        rw [hbm]
        exact hchain
    · -- distinct keys
      intro j hj hjm hfj
      have hjh : j ≠ holeF := hnotholeF j hj hfj
      have hfj' : (bsF j).filled = true := by rwa [hupd_ne j hjh] at hfj
      rw [hupd_ne j hjh, hupd_ne m hmh]
      rw [hupd_ne m hmh] at hbm
      exact inv.distinct m j hm hj hmh hjh (Ne.symm hjm) hfm' hfj'
  · -- exactly one record fewer
    have hcu := countFilled_update bsF n holeF { bsF holeF with filled := false } hholen
    have h1 : (if (bsF holeF).filled then 1 else 0) = 1 := by rw [hfhole]; rfl
    have h2 : (if ({ bsF holeF with filled := false } : Bucket).filled then 1 else 0)
        = 0 := rfl
    rw [h1, h2] at hcu
    have hcongr : countFilled bsF n = countFilled bs0 n :=
      countFilled_congr bsF bs0 n inv.status
    show countFilled (Function.update bsF holeF { bsF holeF with filled := false }) n + 1 =
      countFilled bs0 n
    omega
  · -- all surviving records present
    intro m hm hfm hmi0
    obtain ⟨j, hj, hjh, hrec⟩ := inv.survive m hm hfm hmi0
    refine ⟨j, hj, ?_, ?_⟩
    · rw [hupd_ne j hjh, hrec]
      exact hfm
    · rw [hupd_ne j hjh, hrec]

theorem countFilled_pos (f : Nat → Bucket) (n j : Nat) (hj : j < n)
    (hf : (f j).filled = true) : 0 < countFilled f n := by
  unfold countFilled
  refine List.countP_pos.mpr ?_
  exact ⟨j, List.mem_range.mpr hj, by simpa using hf⟩

/-- Full contract of `hashmap_remove` on an invariant-satisfying table:
removing an absent key returns null and the very same table; removing a
present key returns its value, decrements the count, keeps every other
binding reachable, and applies the shrink rule (halving the capacity
when the count drops below a quarter, unless the floor forbids it). -/
theorem hashmap_remove_spec (h : Hashmap) (k : List Nat) (hI : Inv h) :
    ∃ h' rv, hashmap_remove h k = some (h', rv) ∧
      Inv h' ∧
      h'.min_size = h.min_size ∧ h'.key_size = h.key_size ∧
      h'.copy_keys = h.copy_keys ∧
      (¬HasKey h k → h' = h ∧ rv = 0) ∧
      (HasKey h k →
        h'.size = h.size - 1 ∧
        (∀ w, MapsTo h k w → rv = w) ∧
        (∀ q w, MapsTo h q w → ¬(key_equals h.key_size k q = true) → MapsTo h' q w) ∧
        (h.size - 1 < h.alloc_size / 4 → ¬(h.alloc_size / 2 < h.min_size) →
          h'.alloc_size = h.alloc_size / 2) ∧
        (h.size - 1 < h.alloc_size / 4 → h.alloc_size / 2 < h.min_size →
          h'.alloc_size = h.alloc_size) ∧
        (¬(h.size - 1 < h.alloc_size / 4) → h'.alloc_size = h.alloc_size)) := by
  have hnpos := Inv.alloc_pos h hI
  have hroomex := Inv.room h hI
  obtain ⟨hmin, ⟨kp, hkpa, hkpow⟩, hcount, hload, hInvAt⟩ := hI
  set n := h.alloc_size with hn_def
  set ks := h.key_size with hks_def
  obtain ⟨i0, hi0, hgbi, hstop, hclean⟩ :=
    get_bucket_index_spec h k (hash_key ks k) hnpos hroomex
  by_cases hfi : (h.buckets i0).filled = true
  · -- the key is present at slot i0
    obtain ⟨hhash_i, hkey_i⟩ : (h.buckets i0).hash = hash_key ks k ∧
        key_equals ks k (bkey (h.buckets i0)) = true := by
      rcases hstop with hs | hs
      · rw [hfi] at hs; cases hs
      · exact hs
    have hHas : HasKey h k := ⟨i0, hi0, hfi, hhash_i, hkey_i⟩
    have hMapsk : MapsTo h k (h.buckets i0).value := ⟨i0, hi0, hfi, hhash_i, hkey_i, rfl⟩
    -- find the first empty offset after i0
    obtain ⟨j0, hj0, hj0f⟩ := hroomex
    have hj0i0 : j0 ≠ i0 := by
      intro hk
      rw [hk, hfi] at hj0f
      cases hj0f
    have hs0pos : 1 ≤ cdist n i0 j0 :=
      cdist_pos n i0 j0 hi0 hj0 (fun hk => hj0i0 hk.symm)
    have hs0lt : cdist n i0 j0 < n := cdist_lt n i0 j0 hi0 hj0
    have hQ : ∃ s, 1 ≤ s ∧ (h.buckets (addc n i0 s)).filled = false := by
      refine ⟨cdist n i0 j0, hs0pos, ?_⟩
      rw [addc_cdist n i0 j0 hi0 hj0]
      exact hj0f
    set tE := Nat.find hQ with htE_def
    obtain ⟨htE1, htEempty⟩ := Nat.find_spec hQ
    have htEle : tE ≤ cdist n i0 j0 := Nat.find_min' hQ ⟨hs0pos, by
      rw [addc_cdist n i0 j0 hi0 hj0]; exact hj0f⟩
    have htEn : tE < n := by omega
    have hrunfill : ∀ s, 1 ≤ s → s < tE → (h.buckets (addc n i0 s)).filled = true := by
      intro s hs1 hstE
      have := Nat.find_min hQ hstE
      rcases Bool.eq_false_or_eq_true (h.buckets (addc n i0 s)).filled with hb | hb
      · exact hb
      · exact absurd ⟨hs1, hb⟩ this
    have ctx : RemCtx ks h.buckets n i0 tE :=
      ⟨hInvAt, hnpos, hi0, hfi, htE1, htEn, hrunfill, htEempty⟩
    -- run the compaction loop
    obtain ⟨bsF, ℓF, heqrun, hinvF, hℓF⟩ :=
      removeAux_run ks h.buckets n i0 tE ctx n 0 0 h.buckets
        (RemInv_init ks h.buckets n i0 tE ctx) (by omega)
    rw [addc_zero n i0 hi0] at heqrun
    obtain ⟨hInvAt'', hcount'', hsurv''⟩ :=
      removeFinal_spec ks h.buckets bsF n i0 tE ℓF ctx hinvF hℓF
    set holeF := addc n i0 ℓF with hholeF_def
    set bs'' := Function.update bsF holeF { bsF holeF with filled := false }
      with hbsqq_def
    set h'' : Hashmap := { h with buckets := bs'', size := h.size - 1 } with hhqq_def
    have hszpos : 1 ≤ h.size := by
      rw [hcount]
      exact countFilled_pos h.buckets n i0 hi0 hfi
    have hcount2 : h''.size = countFilled h''.buckets h''.alloc_size := by
      show h.size - 1 = countFilled bs'' n
      omega
    have hInvAt2 : InvAt ks h''.buckets h''.alloc_size := hInvAt''
    -- surviving bindings in the pre-shrink table
    have hsurvive : ∀ q w, MapsTo h q w → ¬(key_equals ks k q = true) →
        MapsTo h'' q w := by
      rintro q w ⟨m, hm, hfm, hhm, hkm, hvm⟩ hkq
      have hmi0 : m ≠ i0 := by
        intro hk
        subst hk
        refine hkq ?_
        have h1 : key_equals ks k (bkey (h.buckets m)) = true := hkey_i
        have h2 : key_equals ks (bkey (h.buckets m)) q = true := by
          rw [key_equals_symm]; exact hkm
        exact key_equals_trans ks k (bkey (h.buckets m)) q h1 h2
      obtain ⟨j, hj, hfj, hrec⟩ := hsurv'' m hm hfm hmi0
      exact ⟨j, hj, hfj,
        by show (bs'' j).hash = hash_key ks q; rw [hrec]; exact hhm,
        by show key_equals ks q (bkey (bs'' j)) = true; rw [hrec]; exact hkm,
        by show (bs'' j).value = w; rw [hrec]; exact hvm⟩
    have hub : ∀ w, MapsTo h k w → (h.buckets i0).value = w := by
      intro w hw
      exact MapsTo_unique_at h hInvAt k (h.buckets i0).value w hMapsk hw
    -- the common prefix of the execution
    have hcode : hashmap_remove h k =
        (if h''.size < h''.alloc_size / 4 then
          match rehash h'' (h''.alloc_size / 2) with
          | none => none
          | some hx => some (hx, (h.buckets i0).value)
        else some (h'', (h.buckets i0).value)) := by
      unfold hashmap_remove
      rw [hgbi]
      simp only [hfi, if_true, heqrun]
    have hload2 : 2 * h''.size ≤ h''.alloc_size := by
      show 2 * (h.size - 1) ≤ n
      omega
    have hminpos : 0 < h.min_size := by unfold MIN_HASHMAP_SIZE at hmin; omega
    have hminle : h.min_size ≤ n := by
      rw [hkpow]
      calc h.min_size = h.min_size * 1 := by omega
        _ ≤ h.min_size * 2 ^ kp := Nat.mul_le_mul_left _ Nat.one_le_two_pow
    by_cases hshr : h''.size < h''.alloc_size / 4
    · -- shrink attempt
      by_cases hblk : h.alloc_size / 2 < h.min_size
      · -- blocked by the floor: rehash is a no-op
        have hreh : rehash h'' (h''.alloc_size / 2) = some h'' := by
          unfold rehash
          rw [if_pos hblk]
        refine ⟨h'', (h.buckets i0).value, ?_, ?_, rfl, rfl, rfl,
          fun hc => absurd hHas hc, ?_⟩
        · rw [hcode, if_pos hshr, hreh]
        · exact ⟨hmin, ⟨kp, hkpa, hkpow⟩, hcount2, hload2, hInvAt2⟩
        · intro _
          refine ⟨rfl, fun w hw => hub w hw, hsurvive, ?_, ?_, ?_⟩
          · intro _ hc
            exact absurd hblk hc
          · intro _ _
            rfl
          · intro hc
            exact absurd hshr hc
      · -- capacity halves
        have hm8 : 8 ≤ h.min_size := hmin
        have hkp1 : 1 ≤ kp := by
          by_contra hc
          push_neg at hc
          have hkp0 : kp = 0 := by omega
          rw [hkp0] at hkpow
          simp only [pow_zero, Nat.mul_one] at hkpow
          have hna : h.alloc_size = h.min_size := hkpow
          omega
        have hhalf : n / 2 = h.min_size * 2 ^ (kp - 1) := by
          have hdbl : n = h.min_size * 2 ^ (kp - 1) * 2 := by
            rw [hkpow]
            conv_lhs => rw [show kp = (kp - 1) + 1 from by omega]
            rw [pow_succ]
            ring
          omega
        obtain ⟨hf', heqreh, haf, hmf, hkf, hcf, hInvAtf, hcountf, hszf, hMapsf⟩ :=
          rehash_spec h'' (h''.alloc_size / 2) hInvAt2 hcount2
            (by show 2 * (h.size - 1) ≤ n / 2
                have hs : h.size - 1 < n / 4 := hshr
                omega)
            (by show 0 < n / 2
                unfold MIN_HASHMAP_SIZE at hmin
                omega)
            hblk
        refine ⟨hf', (h.buckets i0).value, ?_, ?_, by rw [hmf], by rw [hkf],
          by rw [hcf], fun hc => absurd hHas hc, ?_⟩
        · rw [hcode, if_pos hshr, heqreh]
        · refine ⟨by rw [hmf]; exact hmin, ⟨kp - 1, ?_, ?_⟩, hcountf, ?_, ?_⟩
          · rw [haf]
            show kp - 1 < n / 2
            have h2p : kp - 1 < 2 ^ (kp - 1) := Nat.lt_two_pow (kp - 1)
            have : 2 ^ (kp - 1) ≤ h.min_size * 2 ^ (kp - 1) :=
              Nat.le_mul_of_pos_left _ hminpos
            omega
          · rw [haf, hmf]
            show n / 2 = h.min_size * 2 ^ (kp - 1)
            exact hhalf
          · rw [haf, hszf]
            show 2 * h''.size ≤ n / 2
            have hs : h.size - 1 < n / 4 := hshr
            show 2 * (h.size - 1) ≤ n / 2
            omega
          · exact hInvAtf
        · intro _
          refine ⟨by rw [hszf], fun w hw => hub w hw, ?_, ?_, ?_, ?_⟩
          · intro q w hq hkq
            rw [hMapsf]
            exact hsurvive q w hq hkq
          · intro _ _
            rw [haf]
          · intro _ hc
            exact absurd hc hblk
          · intro hc
            exact absurd hshr hc
    · -- no shrink
      refine ⟨h'', (h.buckets i0).value, ?_, ?_, rfl, rfl, rfl,
        fun hc => absurd hHas hc, ?_⟩
      · rw [hcode, if_neg hshr]
      · exact ⟨hmin, ⟨kp, hkpa, hkpow⟩, hcount2, hload2, hInvAt2⟩
      · intro _
        refine ⟨rfl, fun w hw => hub w hw, hsurvive, ?_, ?_, ?_⟩
        · intro hc _
          exact absurd hc hshr
        · intro hc _
          exact absurd hc hshr
        · intro _
          rfl
  · -- the key is absent: the table is returned untouched
    have hfi' : (h.buckets i0).filled = false := by simpa using hfi
    have hnk : ¬HasKey h k := by
      rintro ⟨m, hm, hfm, hhm, hkm⟩
      have hmi0 : m ≠ i0 := by
        intro hk
        rw [hk] at hfm
        rw [hfm] at hfi'
        cases hfi'
      obtain ⟨_, _, hdes_m, hchain_m, _⟩ := hInvAt m hm hfm
      have hdes_m' : (h.buckets m).desired_idx = hash_key ks k % n := by
        rw [hdes_m, hhm]
      rcases Nat.lt_trichotomy (cdist n (hash_key ks k % n) m)
          (cdist n (hash_key ks k % n) i0) with hlt | heqd | hgt
      · exact hclean m hm hlt (Or.inr ⟨hhm, hkm⟩)
      · have := cdist_inj n (hash_key ks k % n) m i0 (Nat.mod_lt _ hnpos) hm hi0 heqd
        exact hmi0 this
      · have hchain : chainMem n (h.buckets m).desired_idx i0 m := by
          rw [hdes_m']
          exact hgt
        have := hchain_m i0 hi0 hchain
        rw [this] at hfi'
        cases hfi'
    refine ⟨h, 0, ?_, ⟨hmin, ⟨kp, hkpa, hkpow⟩, hcount, hload, hInvAt⟩, rfl, rfl, rfl,
      fun _ => ⟨rfl, rfl⟩, fun hc => absurd hc hnk⟩
    unfold hashmap_remove
    rw [hgbi]
    simp only [hfi', Bool.false_eq_true, if_false]

/-! ### Correctness of the iterator -/

/-- The (key, value) pairs of the filled slots with index `≥ p`, in
slot-array order. -/
def pairsFrom (h : Hashmap) (p : Nat) : List (Option (List Nat) × Nat) :=
  ((List.range' p (h.alloc_size - p)).filter (fun j => (h.buckets j).filled)).map
    (fun j => ((h.buckets j).key, (h.buckets j).value))

/-- All (key, value) pairs of the filled slots, in slot-array order. -/
def iterPairs (h : Hashmap) : List (Option (List Nat) × Nat) := pairsFrom h 0

theorem iterFind_some_spec (h : Hashmap) :
    ∀ d p j, h.alloc_size - p ≤ d → iterFind h p = some j →
      p ≤ j ∧ j < h.alloc_size ∧ (h.buckets j).filled = true ∧
        ∀ m, p ≤ m → m < j → (h.buckets m).filled = false := by
  intro d
  induction d with
  | zero =>
    intro p j hd heq
    unfold iterFind at heq
    rw [dif_neg (by omega)] at heq
    cases heq
  | succ d ih =>
    intro p j hd heq
    unfold iterFind at heq
    by_cases hp : p < h.alloc_size
    · rw [dif_pos hp] at heq
      by_cases hf : (h.buckets p).filled = true
      · rw [if_pos hf] at heq
        obtain rfl : p = j := by
          injection heq with hinj
        exact ⟨Nat.le_refl p, hp, hf, fun m h1 h2 => by omega⟩
      · rw [if_neg hf] at heq
        obtain ⟨h1, h2, h3, h4⟩ := ih (p + 1) j (by omega) heq
        refine ⟨by omega, h2, h3, ?_⟩
        intro m hm1 hm2
        rcases Nat.eq_or_lt_of_le hm1 with rfl | hm1'
        · simpa using hf
        · exact h4 m hm1' hm2
    · rw [dif_neg hp] at heq
      cases heq

theorem iterFind_none_spec (h : Hashmap) :
    ∀ d p, h.alloc_size - p ≤ d → iterFind h p = none →
      ∀ m, p ≤ m → m < h.alloc_size → (h.buckets m).filled = false := by
  intro d
  induction d with
  | zero =>
    intro p hd _ m hm1 hm2
    omega
  | succ d ih =>
    intro p hd heq m hm1 hm2
    unfold iterFind at heq
    by_cases hp : p < h.alloc_size
    · rw [dif_pos hp] at heq
      by_cases hf : (h.buckets p).filled = true
      · rw [if_pos hf] at heq
        cases heq
      · rw [if_neg hf] at heq
        rcases Nat.eq_or_lt_of_le hm1 with rfl | hm1'
        · simpa using hf
        · exact ih (p + 1) (by omega) heq m hm1' hm2
    · omega

theorem iterFind_eq_none (h : Hashmap) :
    ∀ d p, h.alloc_size - p ≤ d →
      (∀ m, p ≤ m → m < h.alloc_size → (h.buckets m).filled = false) →
      iterFind h p = none := by
  intro d
  induction d with
  | zero =>
    intro p hd _
    unfold iterFind
    rw [dif_neg (by omega)]
  | succ d ih =>
    intro p hd hall
    unfold iterFind
    by_cases hp : p < h.alloc_size
    · rw [dif_pos hp]
      have hf : (h.buckets p).filled = false := hall p (Nat.le_refl p) hp
      rw [if_neg (by rw [hf]; simp)]
      exact ih (p + 1) (by omega) (fun m hm1 hm2 => hall m (by omega) hm2)
    · rw [dif_neg hp]

theorem pairsFrom_stop (h : Hashmap) (p : Nat) (hp : h.alloc_size ≤ p) :
    pairsFrom h p = [] := by
  unfold pairsFrom
  have : h.alloc_size - p = 0 := by omega
  rw [this]
  rfl

theorem pairsFrom_cons (h : Hashmap) (p : Nat) (hp : p < h.alloc_size)
    (hf : (h.buckets p).filled = true) :
    pairsFrom h p = ((h.buckets p).key, (h.buckets p).value) :: pairsFrom h (p + 1) := by
  unfold pairsFrom
  have h1 : h.alloc_size - p = (h.alloc_size - (p + 1)) + 1 := by omega
  rw [h1, List.range'_succ]
  rw [List.filter_cons]
  rw [hf]
  simp

theorem pairsFrom_skip_one (h : Hashmap) (p : Nat) (hp : p < h.alloc_size)
    (hf : (h.buckets p).filled = false) :
    pairsFrom h p = pairsFrom h (p + 1) := by
  unfold pairsFrom
  have h1 : h.alloc_size - p = (h.alloc_size - (p + 1)) + 1 := by omega
  rw [h1, List.range'_succ]
  rw [List.filter_cons]
  rw [hf]
  simp

theorem pairsFrom_skip (h : Hashmap) :
    ∀ d p q, q - p ≤ d → p ≤ q → q ≤ h.alloc_size →
      (∀ m, p ≤ m → m < q → (h.buckets m).filled = false) →
      pairsFrom h p = pairsFrom h q := by
  intro d
  induction d with
  | zero =>
    intro p q hd h1 _ _
    have : p = q := by omega
    rw [this]
  | succ d ih =>
    intro p q hd h1 h2 hall
    rcases Nat.eq_or_lt_of_le h1 with rfl | hlt
    · rfl
    · rw [pairsFrom_skip_one h p (by omega) (hall p (Nat.le_refl p) hlt)]
      exact ih (p + 1) q (by omega) (by omega) h2
        (fun m hm1 hm2 => hall m (by omega) hm2)

/-- The iterator driver yields exactly the filled slots' pairs from the
current position onward, given enough fuel. -/
theorem iterRun_eq_pairsFrom (h : Hashmap) :
    ∀ fuel p (idx : Int), (idx + 1).toNat = p → (pairsFrom h p).length < fuel →
      iterRun h fuel idx = pairsFrom h p := by
  intro fuel
  induction fuel with
  | zero =>
    intro p idx _ hlen
    omega
  | succ fuel ih =>
    intro p idx hidx hlen
    rcases hfind : iterFind h p with _ | j
    · -- no filled slot left: one failing call, empty output
      have hnone : ∀ m, p ≤ m → m < h.alloc_size → (h.buckets m).filled = false :=
        iterFind_none_spec h (h.alloc_size - p) p (Nat.le_refl _) hfind
      have hnext : hmapiter_next h idx = (-1, false, none, 0) := by
        unfold hmapiter_next
        rw [hidx, hfind]
      have hpairs : pairsFrom h p = [] := by
        rcases Nat.lt_or_ge p h.alloc_size with hp | hp
        · rw [pairsFrom_skip h (h.alloc_size - p) p h.alloc_size (Nat.le_refl _)
            (by omega) (Nat.le_refl _) hnone]
          exact pairsFrom_stop h h.alloc_size (Nat.le_refl _)
        · exact pairsFrom_stop h p hp
      rw [hpairs]
      unfold iterRun
      rw [hnext]
    · -- a filled slot is found and yielded
      obtain ⟨h1, h2, h3, h4⟩ :=
        iterFind_some_spec h (h.alloc_size - p) p j (Nat.le_refl _) hfind
      have hnext : hmapiter_next h idx =
          ((j : Int), true, (h.buckets j).key, (h.buckets j).value) := by
        unfold hmapiter_next
        rw [hidx, hfind]
      have hpairs : pairsFrom h p =
          ((h.buckets j).key, (h.buckets j).value) :: pairsFrom h (j + 1) := by
        rw [pairsFrom_skip h (j - p) p j (Nat.le_refl _) h1 (by omega) h4]
        exact pairsFrom_cons h j h2 h3
      have hstep : iterRun h (fuel + 1) idx =
          ((h.buckets j).key, (h.buckets j).value) :: iterRun h fuel (j : Int) := by
        simp only [iterRun, hnext]
      rw [hstep, hpairs]
      congr 1
      refine ih (j + 1) (j : Int) (by simp) ?_
      rw [hpairs] at hlen
      simpa using Nat.lt_of_succ_lt_succ (by simpa using hlen)

theorem iterPairs_length (h : Hashmap) :
    (iterPairs h).length = countFilled h.buckets h.alloc_size := by
  unfold iterPairs pairsFrom countFilled
  rw [List.length_map]
  have : List.range' 0 (h.alloc_size - 0) = List.range h.alloc_size := by
    rw [Nat.sub_zero, List.range_eq_range']
  rw [this]
  rw [← List.countP_eq_length_filter]

/-! ### The invariant at creation -/

theorem hashmap_create_spec (initial_size : Nat) (ks : Int) (ck : Bool) :
    Inv (hashmap_create initial_size ks ck) ∧
      (hashmap_create initial_size ks ck).min_size =
        Nat.max initial_size MIN_HASHMAP_SIZE ∧
      (hashmap_create initial_size ks ck).alloc_size =
        Nat.max initial_size MIN_HASHMAP_SIZE ∧
      (hashmap_create initial_size ks ck).size = 0 := by
  refine ⟨⟨?_, ⟨0, ?_, ?_⟩, ?_, ?_, ?_⟩, rfl, rfl, rfl⟩
  · show MIN_HASHMAP_SIZE ≤ Nat.max initial_size MIN_HASHMAP_SIZE
    exact Nat.le_max_right _ _
  · show 0 < Nat.max initial_size MIN_HASHMAP_SIZE
    have h8 : (8 : Nat) ≤ Nat.max initial_size MIN_HASHMAP_SIZE :=
      Nat.le_max_right _ _
    omega
  · show Nat.max initial_size MIN_HASHMAP_SIZE =
      Nat.max initial_size MIN_HASHMAP_SIZE * 2 ^ 0
    simp
  · show 0 = countFilled (fun _ => emptyBucket) (Nat.max initial_size MIN_HASHMAP_SIZE)
    rw [countFilled_const_empty]
  · show 2 * 0 ≤ Nat.max initial_size MIN_HASHMAP_SIZE
    omega
  · intro i _ hfi
    exact absurd hfi (by
      show (emptyBucket.filled = true) → False
      simp [emptyBucket])

/-! ### Claim-level definitions -/

/-- The FNV-1a fold over an explicit byte list, used to state which byte
span `hash_key` actually covers. -/
def fnvFold (bytes : List Nat) : Nat := List.foldl fnvStep FNV_BASIS bytes

/-- Modelled from the spec: in variable-length mode the spec's hash is
the FNV-1a hash over the bytes up to and *including* the zero
terminator — the same byte span `key_equals` compares.  The C `hash_key`
is compared against this refinement definition. -/
def spec_hash_var_inclusive (key : List Nat) : Nat :=
  fnvFold (key.takeWhile (fun b => b ≠ 0) ++ [0])

/-- The variable-length hash loop is the FNV-1a fold over the strict
prefix before the terminator: the terminator itself is never hashed. -/
theorem hashVarAux_eq_fold : ∀ k acc,
    hashVarAux acc k = List.foldl fnvStep acc (k.takeWhile (fun b => b ≠ 0))
  | [], _ => rfl
  | a :: as, acc => by
    by_cases ha : a = 0
    · subst ha
      simp [hashVarAux, List.takeWhile]
    · have htw : (a :: as).takeWhile (fun b => decide (b ≠ 0)) =
          a :: as.takeWhile (fun b => decide (b ≠ 0)) := by
        simp [List.takeWhile, ha]
      simp only [hashVarAux, if_neg ha, htw, List.foldl_cons]
      exact hashVarAux_eq_fold as _

/-- Variable-length key equality never looks past the terminator: two
keys with the same bytes up to and including their first shared zero are
equal whatever follows. -/
theorem key_equals_var_after_terminator : ∀ p a b,
    key_equals_var (p ++ 0 :: a) (p ++ 0 :: b) = true
  | [], _, _ => by simp [key_equals_var]
  | x :: p, a, b => by
    simp only [List.cons_append, key_equals_var]
    by_cases hx : x = 0
    · subst hx; simp
    · have h1 : (x == x) = true := by simp
      have h2 : (x == 0) = false := by simpa using hx
      simp [h1, h2, key_equals_var_after_terminator p a b]

/-- Under the invariant the capacity is at least the configured floor. -/
theorem Inv_min_le_alloc (h : Hashmap) (hI : Inv h) :
    h.min_size ≤ h.alloc_size := by
  obtain ⟨_, ⟨j, _, hj⟩, _, _, _⟩ := hI
  have h1 : (1 : Nat) ≤ 2 ^ j := Nat.one_le_two_pow
  calc h.min_size = h.min_size * 1 := by omega
    _ ≤ h.min_size * 2 ^ j := Nat.mul_le_mul_left _ h1
    _ = h.alloc_size := hj.symm

/-- Under the bucket invariant the iterator's pair list has no
duplicates: distinct filled slots hold keys the table tells apart, so
their (key, value) pairs differ. -/
theorem iterPairs_nodup (h : Hashmap)
    (hInv : InvAt h.key_size h.buckets h.alloc_size) : (iterPairs h).Nodup := by
  unfold iterPairs pairsFrom
  rw [Nat.sub_zero, ← List.range_eq_range']
  refine List.Nodup.map_on ?_ (List.Nodup.filter _ (List.nodup_range _))
  intro x hx y hy hfeq
  rw [List.mem_filter] at hx hy
  obtain ⟨hxr, hxf⟩ := hx
  obtain ⟨hyr, hyf⟩ := hy
  rw [List.mem_range] at hxr hyr
  by_contra hxy
  have hkeq : (h.buckets x).key = (h.buckets y).key := congrArg Prod.fst hfeq
  have hbk : bkey (h.buckets x) = bkey (h.buckets y) := by
    unfold bkey; rw [hkeq]
  obtain ⟨_, hhx, _, _, hdist⟩ := hInv x hxr (by simpa using hxf)
  obtain ⟨_, hhy, _, _, _⟩ := hInv y hyr (by simpa using hyf)
  refine hdist y hyr (fun hc => hxy hc.symm) (by simpa using hyf) ⟨?_, ?_⟩
  · rw [hhy, hhx, hbk]
  · rw [hbk]; exact key_equals_refl _ _

/-! ### Concrete tables for witnesses and counterexamples -/

/-- A concrete base table: capacity hint 8, one-byte fixed keys, no
copying. -/
def wbase : Hashmap := hashmap_create 8 1 false

/-- `wbase` after `set [5] 7`. -/
def wset1 : Hashmap := ((hashmap_set wbase [5] 7).getD (wbase, 0)).1

/-- `wbase` after `set [0] 1`. -/
def c5h1 : Hashmap := ((hashmap_set wbase [0] 1).getD (wbase, 0)).1

/-- `c5h1` after `set [1] 2`. -/
def c5h2 : Hashmap := ((hashmap_set c5h1 [1] 2).getD (wbase, 0)).1

/-- `c5h2` after `set [2] 3`: three entries, capacity still 8. -/
def c5h3 : Hashmap := ((hashmap_set c5h2 [2] 3).getD (wbase, 0)).1

/-- `c5h3` after `set [3] 4`: four entries — half the capacity — with no
doubling having happened. -/
def c5h4 : Hashmap := ((hashmap_set c5h3 [3] 4).getD (wbase, 0)).1

/-- A copy-mode table (capacity 8, one-byte fixed keys) after
`set [5] 7`. -/
def c10h1 : Hashmap :=
  ((hashmap_set (hashmap_create 8 1 true) [5] 7).getD
    (hashmap_create 8 1 true, 0)).1

/-- `c10h1` after `remove [5]`: the vacated bucket keeps its key
pointer. -/
def c10h2 : Hashmap := ((hashmap_remove c10h1 [5]).getD (c10h1, 0)).1

/-! ### The claims -/

/-- C1: on any valid table, for every key `k` (well-formed when the
table copies variable-length keys) and every value `v` — the null handle
`0` included — `set(k, v)` succeeds, a subsequent `get(k)` returns `v`,
and `try-get(k)` reports the key present with value `v`. -/
theorem claim_C1_set_get_roundtrip (h : Hashmap) (k : List Nat) (v : Nat)
    (hI : Inv h) (hwf : h.copy_keys = true → h.key_size < 0 → (0 : Nat) ∈ k) :
    ∃ h' old, hashmap_set h k v = some (h', old) ∧
      hashmap_get h' k = some v ∧
      hashmap_may_get h' k = some (true, some v) := by
  obtain ⟨h', old, heq, hInv', hm1, hm2, hm3, hg1, hg2, hmap, hget, hmay,
    hpres, hhk, hnk⟩ := hashmap_set_spec h k v hI hwf
  exact ⟨h', old, heq, hget, hmay⟩

/-- Witness for C1: the round-trip at a concrete table, with the stored
value equal to the null handle `0`. -/
theorem claim_C1_witness :
    Inv wbase ∧
    (∃ h' old, hashmap_set wbase [3] 0 = some (h', old) ∧
      hashmap_get h' [3] = some 0 ∧
      hashmap_may_get h' [3] = some (true, some 0)) :=
  ⟨by decide, claim_C1_set_get_roundtrip wbase [3] 0 (by decide) (by decide)⟩

/-- C3 (counterexample): in variable-length mode (`key_size = -1`) the
hash of the key `[97, 0]` is *not* the FNV-1a hash over the bytes up to
and including the zero terminator (`spec_hash_var_inclusive`, modelled
from the spec's words): the `while (*bytes)` loop of `hash_key` stops at
the terminator without hashing it, while `key_equals` does compare the
terminator — so hashing and equality cover different byte spans. -/
theorem claim_C3_counterexample :
    key_equals (-1) [97, 0] [97, 0] = true ∧
    hash_key (-1) [97, 0] ≠ spec_hash_var_inclusive [97, 0] := by
  decide

/-- C3 (amended): in variable-length mode the hash is the FNV-1a fold
over the strict prefix of the key before (and *excluding*) the zero
terminator.  This span is compatible with key equality: keys the table
considers equal have equal hashes, and bytes after the terminator take
part in neither equality nor hashing. -/
theorem claim_C3_hash_span (ks : Int) (hks : ks < 0) :
    (∀ k, hash_key ks k = fnvFold (k.takeWhile (fun b => b ≠ 0))) ∧
    (∀ a b, key_equals ks a b = true → hash_key ks a = hash_key ks b) ∧
    (∀ p a b, key_equals ks (p ++ 0 :: a) (p ++ 0 :: b) = true) := by
  refine ⟨?_, ?_, ?_⟩
  · intro k
    unfold hash_key fnvFold
    rw [if_pos hks]
    exact hashVarAux_eq_fold k FNV_BASIS
  · exact fun a b hab => hash_key_congr ks a b hab
  · intro p a b
    unfold key_equals
    rw [if_pos hks]
    exact key_equals_var_after_terminator p a b

/-- Witness for C3 (amended): the hash span facts at `key_size = -1`. -/
theorem claim_C3_witness :
    (-1 : Int) < 0 ∧
    ((∀ k, hash_key (-1) k = fnvFold (k.takeWhile (fun b => b ≠ 0))) ∧
     (∀ a b, key_equals (-1) a b = true → hash_key (-1) a = hash_key (-1) b) ∧
     (∀ p a b, key_equals (-1) (p ++ 0 :: a) (p ++ 0 :: b) = true)) :=
  ⟨by decide, claim_C3_hash_span (-1) (by decide)⟩

/-- C4 (counterexample): a capacity hint of 10 yields a valid table
whose allocated capacity is 10 — not a power of two.  `hashmap_create`
allocates exactly `max(initial_size, 8)` buckets, so a non-power-of-two
hint refutes the claimed power-of-two invariant. -/
theorem claim_C4_counterexample :
    (hashmap_create 10 1 false).alloc_size = 10 ∧
    (∀ j : Nat, 2 ^ j ≠ (hashmap_create 10 1 false).alloc_size) ∧
    Inv (hashmap_create 10 1 false) := by
  refine ⟨rfl, ?_, by decide⟩
  intro j
  rw [show (hashmap_create 10 1 false).alloc_size = 10 from rfl]
  rcases Nat.lt_or_ge j 4 with hj | hj
  · interval_cases j <;> decide
  · have h16 : (16 : Nat) ≤ 2 ^ j := by
      calc (16 : Nat) = 2 ^ 4 := by decide
        _ ≤ 2 ^ j := Nat.pow_le_pow_right (by omega) hj
    omega

/-- C4 (amended): in every valid table the capacity is the minimum
capacity times a power of two (a power of two only when the minimum is),
the minimum capacity is at least 8, the capacity is at least the
minimum, and the entry count never exceeds the capacity; this shape is
established by `hashmap_create` — whose minimum is the larger of the
hint and 8 — and preserved by `hashmap_set` and `hashmap_remove`. -/
theorem claim_C4_capacity_shape (h : Hashmap) (hI : Inv h) :
    MIN_HASHMAP_SIZE ≤ h.min_size ∧
    (∃ j, h.alloc_size = h.min_size * 2 ^ j) ∧
    h.min_size ≤ h.alloc_size ∧
    h.size ≤ h.alloc_size ∧
    (∀ k v, (h.copy_keys = true → h.key_size < 0 → (0 : Nat) ∈ k) →
      ∃ h' old, hashmap_set h k v = some (h', old) ∧ Inv h' ∧
        h'.min_size = h.min_size) ∧
    (∀ k, ∃ h' rv, hashmap_remove h k = some (h', rv) ∧ Inv h' ∧
      h'.min_size = h.min_size) ∧
    (∀ initial ksz ck, Inv (hashmap_create initial ksz ck) ∧
      (hashmap_create initial ksz ck).min_size =
        Nat.max initial MIN_HASHMAP_SIZE) := by
  have hma := Inv_min_le_alloc h hI
  obtain ⟨hmin, ⟨j, hjlt, hj⟩, hcount, hload, hInvAt⟩ := hI
  have hIfull : Inv h := ⟨hmin, ⟨j, hjlt, hj⟩, hcount, hload, hInvAt⟩
  refine ⟨hmin, ⟨j, hj⟩, hma, by omega, ?_, ?_, ?_⟩
  · intro k v hwf
    obtain ⟨h', old, heq, hInv', hm1, _, _, _, _, _, _, _, _, _, _⟩ :=
      hashmap_set_spec h k v hIfull hwf
    exact ⟨h', old, heq, hInv', hm1⟩
  · intro k
    obtain ⟨h', rv, heq, hInv', hm1, _, _, _, _⟩ :=
      hashmap_remove_spec h k hIfull
    exact ⟨h', rv, heq, hInv', hm1⟩
  · intro initial ksz ck
    obtain ⟨hInvC, hminC, _, _⟩ := hashmap_create_spec initial ksz ck
    exact ⟨hInvC, hminC⟩

/-- Witness for C4 (amended): the capacity shape at the concrete table
created with hint 10. -/
theorem claim_C4_witness :
    Inv (hashmap_create 10 1 false) ∧
    (MIN_HASHMAP_SIZE ≤ (hashmap_create 10 1 false).min_size ∧
     (∃ j, (hashmap_create 10 1 false).alloc_size =
        (hashmap_create 10 1 false).min_size * 2 ^ j) ∧
     (hashmap_create 10 1 false).min_size ≤
        (hashmap_create 10 1 false).alloc_size ∧
     (hashmap_create 10 1 false).size ≤
        (hashmap_create 10 1 false).alloc_size ∧
     (∀ k v, ((hashmap_create 10 1 false).copy_keys = true →
        (hashmap_create 10 1 false).key_size < 0 → (0 : Nat) ∈ k) →
       ∃ h' old, hashmap_set (hashmap_create 10 1 false) k v = some (h', old) ∧
         Inv h' ∧ h'.min_size = (hashmap_create 10 1 false).min_size) ∧
     (∀ k, ∃ h' rv, hashmap_remove (hashmap_create 10 1 false) k =
        some (h', rv) ∧ Inv h' ∧
        h'.min_size = (hashmap_create 10 1 false).min_size) ∧
     (∀ initial ksz ck, Inv (hashmap_create initial ksz ck) ∧
       (hashmap_create initial ksz ck).min_size =
         Nat.max initial MIN_HASHMAP_SIZE)) :=
  ⟨by decide, claim_C4_capacity_shape (hashmap_create 10 1 false) (by decide)⟩

/-- C5 (counterexample): the growth check runs at the *start* of each
`set` call, against the count as it stands *before* that call — not
against the count the insertion is about to produce.  Concretely: after
three insertions into a fresh capacity-8 table, a fourth insertion
pushes the count to 4 = capacity/2, yet the capacity stays 8 (the
returned state has size 4 and capacity 8); the doubling only fires at
the start of the *next* `set` call. -/
theorem claim_C5_counterexample :
    Inv c5h3 ∧ c5h3.size = 3 ∧ c5h3.alloc_size = 8 ∧
    (hashmap_set c5h3 [3] 4).map (fun p => (p.1.size, p.1.alloc_size, p.2)) =
      some (4, 8, 0) := by
  decide

/-- C5 (amended): whenever a `set` call begins with the count already at
least half the capacity, the capacity doubles (every occupied slot is
reinserted into the new array) before the insertion, the table stays
valid, the new key is retrievable, and every previously stored key is
still retrievable by `get` afterwards. -/
theorem claim_C5_growth (h : Hashmap) (k : List Nat) (v : Nat) (hI : Inv h)
    (hwf : h.copy_keys = true → h.key_size < 0 → (0 : Nat) ∈ k)
    (hg : h.alloc_size / 2 ≤ h.size) :
    ∃ h' old, hashmap_set h k v = some (h', old) ∧
      h'.alloc_size = 2 * h.alloc_size ∧
      Inv h' ∧
      hashmap_get h' k = some v ∧
      (∀ q w, MapsTo h q w → ¬(key_equals h.key_size k q = true) →
        hashmap_get h' q = some w) := by
  obtain ⟨h', old, heq, hInv', hm1, hm2, hm3, hg1, hg2, hmap, hget, hmay,
    hpres, hhk, hnk⟩ := hashmap_set_spec h k v hI hwf
  refine ⟨h', old, heq, hg1 hg, hInv', hget, ?_⟩
  intro q w hm hne
  have hm' : MapsTo h' q w := (hpres q w hne).mpr hm
  exact (lookup_found h' hInv' q w hm').1

/-- Witness for C5 (amended): the table `c5h4` holds 4 entries in
capacity 8, so the next `set` doubles the capacity to 16. -/
theorem claim_C5_witness :
    Inv c5h4 ∧ c5h4.alloc_size / 2 ≤ c5h4.size ∧
    (∃ h' old, hashmap_set c5h4 [4] 5 = some (h', old) ∧
      h'.alloc_size = 2 * c5h4.alloc_size ∧
      Inv h' ∧
      hashmap_get h' [4] = some 5 ∧
      (∀ q w, MapsTo c5h4 q w → ¬(key_equals c5h4.key_size [4] q = true) →
        hashmap_get h' q = some w)) :=
  ⟨by decide, by decide,
    claim_C5_growth c5h4 [4] 5 (by decide) (by decide) (by decide)⟩

/-- C6: removing a present key from a valid table succeeds, returns the
stored value, decrements the count, and keeps the table valid; when the
new count has dropped below a quarter of the capacity the capacity is
halved — unless the halved capacity would fall below the configured
floor, in which case it is left unchanged — and otherwise it is
unchanged; the capacity never drops below the floor, and every other
stored key is still retrievable by `get` and `try-get` afterwards. -/
theorem claim_C6_shrink (h : Hashmap) (k : List Nat) (w : Nat) (hI : Inv h)
    (hm : MapsTo h k w) :
    ∃ h' rv, hashmap_remove h k = some (h', rv) ∧ rv = w ∧
      Inv h' ∧ h'.size = h.size - 1 ∧ h'.min_size = h.min_size ∧
      (h.size - 1 < h.alloc_size / 4 → ¬(h.alloc_size / 2 < h.min_size) →
        h'.alloc_size = h.alloc_size / 2) ∧
      (h.size - 1 < h.alloc_size / 4 → h.alloc_size / 2 < h.min_size →
        h'.alloc_size = h.alloc_size) ∧
      (¬(h.size - 1 < h.alloc_size / 4) → h'.alloc_size = h.alloc_size) ∧
      h.min_size ≤ h'.alloc_size ∧
      (∀ q w', MapsTo h q w' → ¬(key_equals h.key_size k q = true) →
        hashmap_get h' q = some w' ∧
        hashmap_may_get h' q = some (true, some w')) := by
  have hHas : HasKey h k := by
    obtain ⟨i, h1, h2, h3, h4, _⟩ := hm
    exact ⟨i, h1, h2, h3, h4⟩
  obtain ⟨h', rv, heq, hInv', hm1, hm2, hm3, habs, hpres⟩ :=
    hashmap_remove_spec h k hI
  obtain ⟨hsz, hrv, hsur, hshr1, hshr2, hshr3⟩ := hpres hHas
  refine ⟨h', rv, heq, hrv w hm, hInv', hsz, hm1, hshr1, hshr2, hshr3, ?_, ?_⟩
  · have := Inv_min_le_alloc h' hInv'
    omega
  · intro q w' hmq hne
    have hmq' : MapsTo h' q w' := hsur q w' hmq hne
    obtain ⟨hg, hmg, _⟩ := lookup_found h' hInv' q w' hmq'
    exact ⟨hg, hmg⟩

/-- Witness for C6: removing the one stored key of a concrete table. -/
theorem claim_C6_witness :
    Inv wset1 ∧ MapsTo wset1 [5] 7 ∧
    (∃ h' rv, hashmap_remove wset1 [5] = some (h', rv) ∧ rv = 7 ∧
      Inv h' ∧ h'.size = wset1.size - 1 ∧ h'.min_size = wset1.min_size ∧
      (wset1.size - 1 < wset1.alloc_size / 4 →
        ¬(wset1.alloc_size / 2 < wset1.min_size) →
        h'.alloc_size = wset1.alloc_size / 2) ∧
      (wset1.size - 1 < wset1.alloc_size / 4 →
        wset1.alloc_size / 2 < wset1.min_size →
        h'.alloc_size = wset1.alloc_size) ∧
      (¬(wset1.size - 1 < wset1.alloc_size / 4) →
        h'.alloc_size = wset1.alloc_size) ∧
      wset1.min_size ≤ h'.alloc_size ∧
      (∀ q w', MapsTo wset1 q w' →
        ¬(key_equals wset1.key_size [5] q = true) →
        hashmap_get h' q = some w' ∧
        hashmap_may_get h' q = some (true, some w'))) :=
  ⟨by decide, by decide, claim_C6_shrink wset1 [5] 7 (by decide) (by decide)⟩

/-- C7: on a valid table, `set(k, v)` for an absent key returns the null
handle `0` and grows the count by one; `set(k, v2)` for a key already
bound to `v1` returns `v1`, keeps the count unchanged, and a subsequent
`get(k)` returns `v2`. -/
theorem claim_C7_set_return (h : Hashmap) (k : List Nat) (hI : Inv h)
    (hwf : h.copy_keys = true → h.key_size < 0 → (0 : Nat) ∈ k) :
    (¬HasKey h k → ∀ v, ∃ h', hashmap_set h k v = some (h', 0) ∧
      h'.size = h.size + 1 ∧ hashmap_get h' k = some v) ∧
    (∀ v1, MapsTo h k v1 → ∀ v2, ∃ h', hashmap_set h k v2 = some (h', v1) ∧
      h'.size = h.size ∧ hashmap_get h' k = some v2) := by
  constructor
  · intro hab v
    obtain ⟨h', old, heq, hInv', hm1, hm2, hm3, hg1, hg2, hmap, hget, hmay,
      hpres, hhk, hnk⟩ := hashmap_set_spec h k v hI hwf
    obtain ⟨hsz, hold⟩ := hnk hab
    rw [hold] at heq
    exact ⟨h', heq, hsz, hget⟩
  · intro v1 hm1' v2
    obtain ⟨h', old, heq, hInv', hm1, hm2, hm3, hg1, hg2, hmap, hget, hmay,
      hpres, hhk, hnk⟩ := hashmap_set_spec h k v2 hI hwf
    have hHas : HasKey h k := by
      obtain ⟨i, h1, h2, h3, h4, _⟩ := hm1'
      exact ⟨i, h1, h2, h3, h4⟩
    obtain ⟨hsz, w0, hw0, hold⟩ := hhk hHas
    have holdv : old = v1 := by
      rw [hold]
      exact MapsTo_unique h hI k w0 v1 hw0 hm1'
    rw [holdv] at heq
    exact ⟨h', heq, hsz, hget⟩

/-- Witness for C7: insertion of an absent key and update of a present
key on a concrete one-entry table. -/
theorem claim_C7_witness :
    Inv wset1 ∧ ¬HasKey wset1 [9] ∧ MapsTo wset1 [5] 7 ∧
    (∃ h', hashmap_set wset1 [9] 3 = some (h', 0) ∧
      h'.size = wset1.size + 1 ∧ hashmap_get h' [9] = some 3) ∧
    (∃ h', hashmap_set wset1 [5] 9 = some (h', 7) ∧
      h'.size = wset1.size ∧ hashmap_get h' [5] = some 9) :=
  ⟨by decide, by decide, by decide,
    (claim_C7_set_return wset1 [9] (by decide) (by decide)).1 (by decide) 3,
    (claim_C7_set_return wset1 [5] (by decide) (by decide)).2 7 (by decide) 9⟩

/-- C8: removing an absent key from a valid table returns the null
handle `0` and leaves the table state completely unchanged; lookups
signal the same absence through their normal return values. -/
theorem claim_C8_remove_absent (h : Hashmap) (k : List Nat) (hI : Inv h)
    (hab : ¬HasKey h k) :
    hashmap_remove h k = some (h, 0) ∧
    hashmap_get h k = some 0 ∧
    hashmap_may_get h k = some (false, none) := by
  obtain ⟨h', rv, heq, hInv', hm1, hm2, hm3, habs, hpres⟩ :=
    hashmap_remove_spec h k hI
  obtain ⟨hh, hr⟩ := habs hab
  rw [hh, hr] at heq
  obtain ⟨hg, hmg, _⟩ := lookup_absent h hI k hab
  exact ⟨heq, hg, hmg⟩

/-- Witness for C8: removing the absent key `[9]` from a concrete
one-entry table. -/
theorem claim_C8_witness :
    Inv wset1 ∧ ¬HasKey wset1 [9] ∧
    (hashmap_remove wset1 [9] = some (wset1, 0) ∧
     hashmap_get wset1 [9] = some 0 ∧
     hashmap_may_get wset1 [9] = some (false, none)) :=
  ⟨by decide, by decide, claim_C8_remove_absent wset1 [9] (by decide) (by decide)⟩

/-- C2: removal on a valid table succeeds and preserves the probe-chain
invariant: in the resulting table, every occupied slot is reachable from
its desired index by a linear probe that meets no empty slot first
(every slot strictly between the desired index and the occupant, in
cyclic order, is filled); in particular every key other than the removed
one keeps its binding and is still found by `get` and `try-get`. -/
theorem claim_C2_remove_chain_invariant (h : Hashmap) (k : List Nat)
    (hI : Inv h) :
    ∃ h' rv, hashmap_remove h k = some (h', rv) ∧
      (∀ i, i < h'.alloc_size → (h'.buckets i).filled = true →
        ∀ j, j < h'.alloc_size →
          chainMem h'.alloc_size (h'.buckets i).desired_idx j i →
          (h'.buckets j).filled = true) ∧
      (∀ q w, MapsTo h q w → ¬(key_equals h.key_size k q = true) →
        hashmap_get h' q = some w ∧
        hashmap_may_get h' q = some (true, some w)) := by
  obtain ⟨h', rv, heq, hInv', hm1, hm2, hm3, habs, hpres⟩ :=
    hashmap_remove_spec h k hI
  refine ⟨h', rv, heq, ?_, ?_⟩
  · obtain ⟨_, _, _, _, hInvAt'⟩ := hInv'
    intro i hi hfi j hj hchain
    exact (hInvAt' i hi hfi).2.2.2.1 j hj hchain
  · intro q w hm hne
    by_cases hk : HasKey h k
    · obtain ⟨_, _, hsur, _, _, _⟩ := hpres hk
      have hm' : MapsTo h' q w := hsur q w hm hne
      obtain ⟨hg, hmg, _⟩ := lookup_found h' hInv' q w hm'
      exact ⟨hg, hmg⟩
    · obtain ⟨hh, _⟩ := habs hk
      subst hh
      obtain ⟨hg, hmg, _⟩ := lookup_found h' hI q w hm
      exact ⟨hg, hmg⟩

/-- Witness for C2: removing the stored key of a concrete table. -/
theorem claim_C2_witness :
    Inv wset1 ∧
    (∃ h' rv, hashmap_remove wset1 [5] = some (h', rv) ∧
      (∀ i, i < h'.alloc_size → (h'.buckets i).filled = true →
        ∀ j, j < h'.alloc_size →
          chainMem h'.alloc_size (h'.buckets i).desired_idx j i →
          (h'.buckets j).filled = true) ∧
      (∀ q w, MapsTo wset1 q w → ¬(key_equals wset1.key_size [5] q = true) →
        hashmap_get h' q = some w ∧
        hashmap_may_get h' q = some (true, some w))) :=
  ⟨by decide, claim_C2_remove_chain_invariant wset1 [5] (by decide)⟩

/-- C9: on a valid table with N entries, driving the iterator from the
reset position `-1` yields exactly the filled slots' (key, value) pairs
in slot-array order: N pairs, no duplicates, each pair equal to a
currently stored entry; and from any position past the last filled slot
the next advance fails, yields no key or value, and resets the position
to `-1`. -/
theorem claim_C9_iterator (h : Hashmap) (hI : Inv h) :
    iterRun h (h.size + 1) (-1) = iterPairs h ∧
    (iterPairs h).length = h.size ∧
    (iterPairs h).Nodup ∧
    (∀ pr, pr ∈ iterPairs h → ∃ i, i < h.alloc_size ∧
      (h.buckets i).filled = true ∧
      pr = ((h.buckets i).key, (h.buckets i).value)) ∧
    (∀ idx : Int, (∀ m, (idx + 1).toNat ≤ m → m < h.alloc_size →
        (h.buckets m).filled = false) →
      hmapiter_next h idx = (-1, false, none, 0)) := by
  obtain ⟨hmin, hpow, hcount, hload, hInvAt⟩ := hI
  have hlen : (iterPairs h).length = h.size := by
    rw [iterPairs_length]; omega
  refine ⟨?_, hlen, iterPairs_nodup h hInvAt, ?_, ?_⟩
  · refine iterRun_eq_pairsFrom h (h.size + 1) 0 (-1) (by decide) ?_
    have h0 : (iterPairs h).length = h.size := hlen
    unfold iterPairs at h0
    omega
  · intro pr hpr
    unfold iterPairs pairsFrom at hpr
    rw [Nat.sub_zero, ← List.range_eq_range'] at hpr
    rw [List.mem_map] at hpr
    obtain ⟨j, hj, hjeq⟩ := hpr
    rw [List.mem_filter] at hj
    obtain ⟨hjr, hjf⟩ := hj
    rw [List.mem_range] at hjr
    exact ⟨j, hjr, by simpa using hjf, hjeq.symm⟩
  · intro idx hempty
    unfold hmapiter_next
    rw [iterFind_eq_none h (h.alloc_size - (idx + 1).toNat) (idx + 1).toNat
      (Nat.le_refl _) hempty]

/-- Witness for C9: the full iteration facts on a concrete one-entry
table. -/
theorem claim_C9_witness :
    Inv wset1 ∧
    (iterRun wset1 (wset1.size + 1) (-1) = iterPairs wset1 ∧
     (iterPairs wset1).length = wset1.size ∧
     (iterPairs wset1).Nodup ∧
     (∀ pr, pr ∈ iterPairs wset1 → ∃ i, i < wset1.alloc_size ∧
       (wset1.buckets i).filled = true ∧
       pr = ((wset1.buckets i).key, (wset1.buckets i).value)) ∧
     (∀ idx : Int, (∀ m, (idx + 1).toNat ≤ m → m < wset1.alloc_size →
         (wset1.buckets m).filled = false) →
       hmapiter_next wset1 idx = (-1, false, none, 0))) :=
  ⟨by decide, claim_C9_iterator wset1 (by decide)⟩

/-- C10: refuted by a concrete run.  In copy-keys mode, inserting the
key `[5]` into a fresh table and then removing it reaches a state - with
zero entries - in which the vacated bucket still holds a non-null key
pointer: `hashmap_remove` clears only the `filled` flag of the final
vacated slot and never clears its `key` field.  Since the removal path
has already freed that key copy (`free(hmap->buckets[index].key)`),
`hashmap_destroy`'s copy-keys pass, which frees every non-null key
pointer regardless of `filled`, would free it a second time. -/
theorem claim_C10_stale_key_handle :
    c10h1.copy_keys = true ∧ Inv c10h1 ∧ MapsTo c10h1 [5] 7 ∧
    (hashmap_remove c10h1 [5]).map (fun p => p.2) = some 7 ∧
    c10h2.size = 0 ∧
    (∃ i, i < c10h2.alloc_size ∧ (c10h2.buckets i).filled = false ∧
      (c10h2.buckets i).key ≠ none) := by
  decide

end GhhHashmap
